import Mathlib

/-!
Verification of the pauliopt Pauli-polynomial synthesis core
(`pauliopt/pauli/pauli_gadget.py`, `pauliopt/pauli/pauli_polynomial.py`,
`pauliopt/pauli/synth/steiner_gray_nc.py`) against its specification.

The Python sources are shallowly embedded: classes become structures, in-place
mutation becomes explicit state passing (a heap of gadget cells where aliasing
matters), `while` loops become fuel/well-founded recursion, and code paths that
raise Python exceptions return `Except`.  Angles (`AngleExpr` / floats in the
source) are modelled as exact rationals; `2 * np.pi` is the fixed constant
`two_pi` below, whose only relevant features are that it is nonzero and that
equality against it is exact (no epsilon), matching the float comparison in
`remove_collapsed_pauli_gadegts`.
-/

namespace PauliOpt

/-- `pauliopt.pauli.utils.Pauli`: the enumeration {I, X, Y, Z}. -/
inductive Pauli where
  | I : Pauli
  | X : Pauli
  | Y : Pauli
  | Z : Pauli
deriving DecidableEq, Repr

/-- Model of the float constant `np.pi` (exact-rational rendering of the
decimal printed value; only exact equality against it is ever used). -/
def np_pi : ℚ := 3.141592653589793

/-- Model of `2 * np.pi`, the full rotation period used by
`remove_collapsed_pauli_gadegts`. -/
def two_pi : ℚ := 2 * np_pi

/-- `PauliGadget.__init__`: an angle plus one Pauli per qubit. -/
structure PauliGadget where
  angle : ℚ
  paulis : List Pauli
deriving DecidableEq, Repr

instance : Inhabited PauliGadget := ⟨⟨0, []⟩⟩

/-- `PauliGadget.num_legs`: number of non-identity entries. -/
def PauliGadget.num_legs (g : PauliGadget) : ℕ :=
  (g.paulis.filter (fun p => p ≠ Pauli.I)).length

/-- `PauliGadget.copy`: the Pauli list is duplicated, the angle copied by
value; in the pure embedding this is the identity on gadget values (the heap
embedding below models the fresh allocation). -/
def PauliGadget.copy (g : PauliGadget) : PauliGadget :=
  ⟨g.angle, g.paulis⟩

/-- `PauliGadget.commutes`: count positions where both Paulis are non-identity
and unequal; the gadgets commute iff that count is even.  (The source raises on
unequal lengths; as in the source's `zip`, extra positions of the longer gadget
are ignored here, and every in-repo caller compares equal-length gadgets.) -/
def PauliGadget.commutes (g1 g2 : PauliGadget) : Bool :=
  ((g1.paulis.zip g2.paulis).filter
      (fun pq => pq.1 ≠ pq.2 ∧ pq.1 ≠ Pauli.I ∧ pq.2 ≠ Pauli.I)).length % 2 == 0

/-- `PauliPolynomial`: an ordered sequence of gadgets over `num_qubits`. -/
structure PauliPolynomial where
  num_qubits : ℕ
  pauli_gadgets : List PauliGadget
deriving DecidableEq, Repr

/-- `PauliPolynomial.num_gadgets`. -/
def PauliPolynomial.num_gadgets (pp : PauliPolynomial) : ℕ :=
  pp.pauli_gadgets.length

/-- Read `pp.pauli_gadgets[col]` (callers always index in range). -/
def PauliPolynomial.gadget (pp : PauliPolynomial) (col : ℕ) : PauliGadget :=
  pp.pauli_gadgets.getD col default

/-- Read `pp[col][q]` (callers always index in range; a missing entry reads as
identity). -/
def PauliPolynomial.pauliAt (pp : PauliPolynomial) (col q : ℕ) : Pauli :=
  (pp.gadget col).paulis.getD q Pauli.I

/-!  ### `simplify_pauli_polynomial` and its helpers
(`pauli_polynomial.py`, lines 306-358). -/

/-- `remove_collapsed_pauli_gadegts`: keep the gadgets whose angle differs from
`2*np.pi` and from `0` (exact comparisons). -/
def remove_collapsed_pauli_gadegts (remaining_poly : List PauliGadget) :
    List PauliGadget :=
  remaining_poly.filter (fun x => x.angle ≠ two_pi ∧ x.angle ≠ 0)

/-- Pauli-string equality test used by `find_machting_parity_right`
(`all(p_1 == p_2 for p_1, p_2 in zip(...))`). -/
def paulisMatch (g1 g2 : PauliGadget) : Bool :=
  (g1.paulis.zip g2.paulis).all (fun pq => pq.1 == pq.2)

/-- `find_machting_parity_right`: index of the first gadget strictly right of
`idx` with an identical Pauli string (scan of `remaining_poly[idx + 1:]`). -/
def find_machting_parity_right (idx : ℕ) (remaining_poly : List PauliGadget) :
    Option ℕ :=
  match (remaining_poly.drop (idx + 1)).findIdx?
      (fun g => paulisMatch (remaining_poly.getD idx default) g) with
  | none => none
  | some idx_right => some (idx + idx_right + 1)

/-- `is_commuting_region`: `remaining_poly[idx]` commutes with every gadget at
positions `idx ≤ k < idx_right`. -/
def is_commuting_region (idx idx_right : ℕ) (remaining_poly : List PauliGadget) :
    Bool :=
  (List.range' idx (idx_right - idx)).all
    (fun k => (remaining_poly.getD idx default).commutes
      (remaining_poly.getD k default))

/-- Set only the angle of the gadget stored at position `i`. -/
def setAngle (poly : List PauliGadget) (i : ℕ) (a : ℚ) : List PauliGadget :=
  poly.set i ⟨a, (poly.getD i default).paulis⟩

/-- One iteration of the `for idx, gadget in enumerate(remaining_poly)` body of
`propagate_phase_gadegts`: merge `remaining_poly[idx]` into the matching gadget
to its right when the region commutes, zeroing the left angle.  Returns the
updated list and whether this iteration left `converged` untouched. -/
def propagate_phase_step (poly : List PauliGadget) (idx : ℕ) :
    List PauliGadget × Bool :=
  match find_machting_parity_right idx poly with
  | none => (poly, true)
  | some idx_right =>
    if is_commuting_region idx idx_right poly then
      (setAngle
        (setAngle poly idx_right
          ((poly.getD idx_right default).angle + (poly.getD idx default).angle))
        idx 0, false)
    else (poly, true)

/-- `propagate_phase_gadegts`: one full left-to-right merging pass, in-place on
the list of gadget values; the Boolean is the final `converged` flag. -/
def propagate_phase_gadegts (remaining_poly : List PauliGadget) :
    List PauliGadget × Bool :=
  (List.range remaining_poly.length).foldl
    (fun acc idx =>
      let step := propagate_phase_step acc.1 idx
      (step.1, acc.2 && step.2))
    (remaining_poly, true)

/-- The `while not converged` loop of `simplify_pauli_polynomial`, with fuel.
Each non-converged pass zeroes at least one angle, so the filtered length
strictly decreases and `remaining_poly.length + 1` fuel always suffices (proved
in `simplify_go_spec` below). -/
def simplify_go : ℕ → List PauliGadget → List PauliGadget
  | 0, poly => poly
  | fuel + 1, poly =>
    let poly1 := remove_collapsed_pauli_gadegts poly
    let pass := propagate_phase_gadegts poly1
    if pass.2 then pass.1 else simplify_go fuel pass.1

/-- `simplify_pauli_polynomial`: copy every gadget, run merge passes to the
fixed point, rebuild a polynomial.  (`__irshift__`'s length guard is dead here:
simplification never changes a Pauli string, so copies keep their length.) -/
def simplify_pauli_polynomial (pp : PauliPolynomial) : PauliPolynomial :=
  let remaining_poly := pp.pauli_gadgets.map PauliGadget.copy
  ⟨pp.num_qubits, simplify_go (remaining_poly.length + 1) remaining_poly⟩

/-!  ### Heap embedding of `simplify_pauli_polynomial`

Python gadgets are mutable objects: `remaining_poly[idx].angle = 0.0` writes
through a reference.  To state that `simplify_pauli_polynomial` never modifies
its input (it works on `gadet.copy()` objects only), gadget objects are
modelled as cells of a heap and a polynomial as a list of cell indices; every
angle assignment of `propagate_phase_gadegts` becomes a heap write. -/

/-- The object heap: cell `r` holds the gadget object with id `r`. -/
abbrev Heap := List PauliGadget

/-- A `PauliPolynomial` whose `pauli_gadgets` list holds object references. -/
structure HeapPolynomial where
  num_qubits : ℕ
  gadget_refs : List ℕ
deriving DecidableEq, Repr

/-- Dereference a gadget object. -/
def heapRead (h : Heap) (r : ℕ) : PauliGadget := h.getD r default

/-- Overwrite a gadget object in place. -/
def heapWrite (h : Heap) (r : ℕ) (g : PauliGadget) : Heap := h.set r g

/-- `[gadet.copy() for gadet in pp.pauli_gadgets]`: allocate one fresh cell per
input gadget (each `copy` duplicates the Pauli list, so no cell is shared with
the input polynomial), returning the new heap and the fresh references. -/
def copy_gadgets (h : Heap) (refs : List ℕ) : Heap × List ℕ :=
  (h ++ refs.map (fun r => (heapRead h r).copy),
   List.range' h.length refs.length)

/-- Heap version of `remove_collapsed_pauli_gadegts` (drops references, writes
nothing). -/
def remove_collapsed_refs (h : Heap) (refs : List ℕ) : List ℕ :=
  refs.filter (fun r => (heapRead h r).angle ≠ two_pi ∧ (heapRead h r).angle ≠ 0)

/-- Heap version of one `propagate_phase_gadegts` iteration: the two angle
assignments become writes to the cells referenced at `idx` and `idx_right`. -/
def propagate_phase_step_refs (h : Heap) (refs : List ℕ) (idx : ℕ) :
    Heap × Bool :=
  let vals := refs.map (heapRead h)
  match find_machting_parity_right idx vals with
  | none => (h, true)
  | some idx_right =>
    if is_commuting_region idx idx_right vals then
      let rIdx := refs.getD idx 0
      let rRight := refs.getD idx_right 0
      let h1 := heapWrite h rRight
        ⟨(heapRead h rRight).angle + (heapRead h rIdx).angle,
         (heapRead h rRight).paulis⟩
      (heapWrite h1 rIdx ⟨0, (heapRead h1 rIdx).paulis⟩, false)
    else (h, true)

/-- Heap version of `propagate_phase_gadegts`. -/
def propagate_phase_refs (h : Heap) (refs : List ℕ) : Heap × Bool :=
  (List.range refs.length).foldl
    (fun acc idx =>
      let step := propagate_phase_step_refs acc.1 refs idx
      (step.1, acc.2 && step.2))
    (h, true)

/-- Heap version of the `while not converged` loop. -/
def simplify_go_refs : ℕ → Heap → List ℕ → Heap × List ℕ
  | 0, h, refs => (h, refs)
  | fuel + 1, h, refs =>
    let refs1 := remove_collapsed_refs h refs
    let pass := propagate_phase_refs h refs1
    if pass.2 then (pass.1, refs1) else simplify_go_refs fuel pass.1 refs1

/-- Heap version of `simplify_pauli_polynomial`: copy, merge to fixed point,
rebuild; the result heap is returned alongside the fresh polynomial. -/
def simplify_pauli_polynomial_heap (h : Heap) (pp : HeapPolynomial) :
    Heap × HeapPolynomial :=
  let copied := copy_gadgets h pp.gadget_refs
  let result := simplify_go_refs (copied.2.length + 1) copied.1 copied.2
  (result.1, ⟨pp.num_qubits, result.2⟩)

/-!  ### Topology service and `find_minimal_cx_assignment`
(`pauli_gadget.py`, lines 14-58). -/

/-- Modelled from the spec: the undirected connectivity graph underlying a
topology (`pauliopt.topologies` is not in `src/`); nodes are qubit indices and
each undirected edge is stored once. -/
structure Graph where
  nodes : List ℕ
  edges : List (ℕ × ℕ)
deriving DecidableEq, Repr

/-- Adjacency in a graph (an undirected edge stored in either orientation). -/
def Graph.adj (G : Graph) (u v : ℕ) : Bool :=
  decide ((u, v) ∈ G.edges ∨ (v, u) ∈ G.edges)

/-- Modelled from the spec: the topology service (`pauliopt.topologies.Topology`
is not in `src/`), an opaque provider of `dist(u,v)`, `shortest_path(u,v)` (an
ordered sequence of qubit indices from `u` to `v` inclusive, hence of length at
least 2 when `u ≠ v`) and of the raw connectivity graph. -/
structure Topology where
  graph : Graph
  dist : ℕ → ℕ → ℕ
  shortest_path : ℕ → ℕ → List ℕ
  shortest_path_length : ∀ u v, u ≠ v → 2 ≤ (shortest_path u v).length

/-- A topology whose shortest paths are all direct hops, as on a complete
connectivity graph. -/
def Topology.directPaths (arch : Topology) : Prop :=
  ∀ u v, u ≠ v → (arch.shortest_path u v).length = 2

/-- The complete topology on `n` qubits. -/
def Topology.complete (n : ℕ) : Topology where
  graph := ⟨List.range n,
    (List.range n).flatMap (fun i =>
      ((List.range n).filter (fun j => decide (i < j))).map (fun j => (i, j)))⟩
  dist := fun u v => if u = v then 0 else 1
  shortest_path := fun u v => if u = v then [u] else [u, v]
  shortest_path_length := by
    intro u v huv
    simp [if_neg huv]

/-- The inner zig-zag of `decompose_cnot_ladder_z`: for each intermediate node
`current` of the shortest path, append `(current, prev)` then `(prev, current)`
and advance `prev`. -/
def cnot_ladder_zigzag : ℕ → List ℕ → List (ℕ × ℕ)
  | _, [] => []
  | prev, current :: rest =>
    (current, prev) :: (prev, current) :: cnot_ladder_zigzag current rest

/-- `decompose_cnot_ladder_z`: walk `shortest_path(ctrl, trg)[1:-1]` emitting
the zig-zag, append `(shortest_path[-2], trg)`, and return the reversal.
(The source indexes `shortest_path[-2]`, an `IndexError` on paths shorter than
2; such paths never arise for the distinct endpoints this is called with.) -/
def decompose_cnot_ladder_z (ctrl trg : ℕ) (arch : Topology) : List (ℕ × ℕ) :=
  let sp := arch.shortest_path ctrl trg
  (cnot_ladder_zigzag ctrl ((sp.drop 1).dropLast) ++
    [(sp.getD (sp.length - 2) 0, trg)]).reverse

/-- The errors `find_minimal_cx_assignment` can raise: the explicit
`Exception` on a non-binary column, `np.argmax`'s `ValueError` on an empty
column, and the `KeyError` of `incident[q]` when the BFS pops a qubit outside
the dictionary's key set `range(len(column))`. -/
inductive CxErr where
  | nonBinary : CxErr
  | emptyArgmax : CxErr
  | keyError : CxErr
deriving DecidableEq, Repr

/-- `np.argmax`: index of the first maximal entry; `none` on an empty array
(numpy raises `ValueError` there). -/
def np_argmax_aux : List ℤ → ℕ → ℕ → ℤ → ℕ
  | [], _, best, _ => best
  | x :: xs, i, best, bestv =>
    if bestv < x then np_argmax_aux xs (i + 1) i x
    else np_argmax_aux xs (i + 1) best bestv

/-- `np.argmax` on a list of integers. -/
def np_argmax : List ℤ → Option ℕ
  | [] => none
  | x :: xs => some (np_argmax_aux xs 1 0 x)

/-- The weighted graph built by `find_minimal_cx_assignment`: one edge per
unordered pair of active qubits (the source adds both orientations to an
`nx.Graph`, which stores the undirected edge once), weighted
`4 * arch.dist(i, j) - 2`. -/
def build_edges (column : List ℤ) (arch : Topology) : List (ℕ × ℕ × ℤ) :=
  (List.range column.length).flatMap (fun i =>
    ((List.range column.length).filter (fun j =>
        decide (i < j) && decide (column.getD i 0 ≠ 0) &&
        decide (column.getD j 0 ≠ 0))).map
      (fun j => (i, j, 4 * (arch.dist i j : ℤ) - 2)))

/-- The minimum-weight crossing edge out of `visited` (first minimum in scan
order), oriented as (visited endpoint, fresh endpoint). -/
def crossing_min (edges : List (ℕ × ℕ × ℤ)) (visited : List ℕ) :
    Option (ℕ × ℕ × ℤ) :=
  edges.foldl
    (fun best e =>
      let cand : Option (ℕ × ℕ × ℤ) :=
        if e.1 ∈ visited ∧ e.2.1 ∉ visited then some e
        else if e.2.1 ∈ visited ∧ e.1 ∉ visited then some (e.2.1, e.1, e.2.2)
        else none
      match best, cand with
      | none, c => c
      | some b, none => some b
      | some b, some c => if c.2.2 < b.2.2 then some c else some b)
    none

/-- Prim's algorithm from the current `visited` set: repeatedly take a
minimum-weight crossing edge, emitting it as (tree parent, fresh child).
Mirrors `nx.minimum_spanning_edges(G, algorithm="prim")` on one component. -/
def prim_from (edges : List (ℕ × ℕ × ℤ)) :
    ℕ → List ℕ → List (ℕ × ℕ) → List ℕ × List (ℕ × ℕ)
  | 0, visited, acc => (visited, acc)
  | fuel + 1, visited, acc =>
    match crossing_min edges visited with
    | none => (visited, acc)
    | some e => prim_from edges fuel (visited ++ [e.2.1]) (acc ++ [(e.1, e.2.1)])

/-- `nx.minimum_spanning_edges(..., algorithm="prim")` over the whole (possibly
disconnected) graph: run Prim from each not-yet-visited node in index order. -/
def prim_all (n : ℕ) (edges : List (ℕ × ℕ × ℤ)) : List (ℕ × ℕ) :=
  ((List.range n).foldl
    (fun st node =>
      if node ∈ st.1 then st
      else prim_from edges n (st.1 ++ [node]) st.2)
    ([], [])).2

/-- The `incident` map: for each spanning-tree branch `(fst, snd)`, `incident
fst` holds `(fst, snd)` and `incident snd` holds `(snd, fst)`. -/
def incident (branches : List (ℕ × ℕ)) (q : ℕ) : List (ℕ × ℕ) :=
  (branches.filter (fun e => e.1 == q)).map (fun e => (e.1, e.2)) ++
  (branches.filter (fun e => e.2 == q)).map (fun e => (e.2, e.1))

/-- The BFS of `find_minimal_cx_assignment`: pop `q`, look up `incident[q]` —
the `incident` dictionary is keyed exactly by `range(len(column))`, so a popped
qubit outside `0..n-1` raises `KeyError` — mark `q` visited, and for every
incident pair `(tail, head)` with `head` unvisited append
`decompose_cnot_ladder_z(head, tail)` to the ladder and enqueue `head`.
`U` over-approximates every node the loop can touch, which bounds the visited
set and makes the loop terminate (lexicographic measure: nodes of `U` still
unvisited, then the queue position of the first unvisited node). -/
def bfs_loop (arch : Topology) (n : ℕ) (inc : ℕ → List (ℕ × ℕ)) (U : List ℕ)
    (hInc : ∀ q p, p ∈ inc q → p.2 ∈ U) :
    (queue : List ℕ) → (∀ x ∈ queue, x ∈ U) → (visited : List ℕ) →
    (ladder : List (ℕ × ℕ)) → Except CxErr (List (ℕ × ℕ) × List ℕ)
  | [], _, visited, ladder => Except.ok (ladder, visited)
  | q :: rest, hq, visited, ladder =>
    if q < n then
      let visited' := visited.insert q
      let news := (inc q).filter (fun th => decide (th.2 ∉ visited'))
      bfs_loop arch n inc U hInc
        (rest ++ news.map (fun th => th.2))
        (by
          intro x hx
          rcases List.mem_append.1 hx with h1 | h2
          · exact hq x (List.mem_cons_of_mem _ h1)
          · obtain ⟨th, hth, rfl⟩ := List.mem_map.1 h2
            exact hInc q th (List.mem_of_mem_filter hth))
        visited'
        (ladder ++
          (news.map (fun th => decompose_cnot_ladder_z th.2 th.1 arch)).flatten)
    else Except.error CxErr.keyError
termination_by queue hq visited ladder =>
  ((U.filter (fun x => decide (x ∉ visited))).length,
   queue.findIdx (fun x => decide (x ∉ visited)))
decreasing_by
  by_cases hqv : q ∈ visited
  · have hins : List.insert q visited = visited := List.insert_of_mem hqv
    simp only [hins]
    apply Prod.Lex.right
    have hnews : ∀ x ∈ ((inc q).filter
        (fun th => decide (th.2 ∉ visited))).map (fun th => th.2),
        (decide (x ∉ visited)) = true := by
      intro x hx
      obtain ⟨th, hth, rfl⟩ := List.mem_map.1 hx
      exact (List.mem_filter.1 hth).2
    have main : ∀ (r ns : List ℕ), (∀ x ∈ ns, (decide (x ∉ visited)) = true) →
        (r ++ ns).findIdx (fun x => decide (x ∉ visited)) <
        r.findIdx (fun x => decide (x ∉ visited)) + 1 := by
      intro r ns hns
      induction r with
      | nil =>
        cases ns with
        | nil => simp [List.findIdx_nil]
        | cons h t =>
          have h1 := hns h (List.mem_cons_self _ _)
          simp only [List.nil_append, List.findIdx_cons, h1, cond_true]
          exact Nat.succ_pos _
      | cons a t ih =>
        simp only [List.cons_append, List.findIdx_cons]
        cases hpa : (decide (a ∉ visited)) with
        | true => simp
        | false =>
          simp only [cond_false]
          exact Nat.succ_lt_succ ih
    rw [List.findIdx_cons]
    have hq0 : (decide (q ∉ visited)) = false := by simp [hqv]
    rw [hq0]
    simp only [cond_false]
    exact main rest _ hnews
  · apply Prod.Lex.left
    have hqU : q ∈ U := hq q (List.mem_cons_self _ _)
    have hsub : ∀ x : ℕ, (decide (x ∉ List.insert q visited)) = true →
        (decide (x ∉ visited)) = true := by
      intro x hx
      simp only [decide_eq_true_eq] at hx ⊢
      intro hmem
      exact hx (List.mem_insert_of_mem hmem)
    have hmono : ∀ V : List ℕ,
        (V.filter (fun x => decide (x ∉ List.insert q visited))).length ≤
        (V.filter (fun x => decide (x ∉ visited))).length := by
      intro V
      induction V with
      | nil => simp
      | cons a t ih =>
        simp only [List.filter_cons]
        by_cases hp' : (decide (a ∉ List.insert q visited)) = true
        · simp only [hp', hsub a hp', if_pos, List.length_cons]
          exact Nat.succ_le_succ ih
        · simp only [Bool.not_eq_true] at hp'
          simp only [hp', Bool.false_eq_true, ite_false]
          by_cases hp : (decide (a ∉ visited)) = true
          · simp only [hp, if_pos, List.length_cons]
            exact Nat.le_succ_of_le ih
          · simp only [Bool.not_eq_true] at hp
            simp only [hp, Bool.false_eq_true, ite_false]
            exact ih
    have hqgone : (decide (q ∉ List.insert q visited)) = false := by
      simp [List.mem_insert_self]
    have hqold : (decide (q ∉ visited)) = true := by simpa using hqv
    have main : ∀ (V : List ℕ), q ∈ V →
        (V.filter (fun x => decide (x ∉ List.insert q visited))).length <
        (V.filter (fun x => decide (x ∉ visited))).length := by
      intro V hqV
      induction V with
      | nil => cases hqV
      | cons a t ih =>
        simp only [List.filter_cons]
        rcases List.mem_cons.1 hqV with rfl | hmem
        · simp only [hqgone, hqold, Bool.false_eq_true, ite_false, if_pos,
            List.length_cons]
          exact Nat.lt_succ_of_le (hmono t)
        · by_cases hp' : (decide (a ∉ List.insert q visited)) = true
          · simp only [hp', hsub a hp', if_pos, List.length_cons]
            exact Nat.succ_lt_succ (ih hmem)
          · simp only [Bool.not_eq_true] at hp'
            simp only [hp', Bool.false_eq_true, ite_false]
            by_cases hp : (decide (a ∉ visited)) = true
            · simp only [hp, if_pos, List.length_cons]
              exact Nat.lt_succ_of_lt (ih hmem)
            · simp only [Bool.not_eq_true] at hp
              simp only [hp, Bool.false_eq_true, ite_false]
              exact ih hmem
    exact main U hqU

/-- `find_minimal_cx_assignment`: validate the 0/1 indicator column, build the
weighted graph on active qubits, take a minimum spanning structure, choose the
root (`q0` if given, else `np.argmax`), and BFS outward emitting CNOT-ladder
segments.  Raises on a non-binary column; `np.argmax` raises on an empty one;
the BFS raises `KeyError` when it pops a qubit outside the `incident`
dictionary's keys `range(len(column))` (reachable with an out-of-range
explicit root). -/
def find_minimal_cx_assignment (column : List ℤ) (arch : Topology)
    (q0opt : Option ℕ) : Except CxErr (List (ℕ × ℕ) × ℕ) :=
  if ∀ x ∈ column, x = 0 ∨ x = 1 then
    let edges := build_edges column arch
    let mst_branches := prim_all column.length edges
    let inc := incident mst_branches
    let U0 := mst_branches.flatMap (fun e => [e.1, e.2])
    match q0opt with
    | some q0 =>
      (bfs_loop arch column.length inc (q0 :: U0)
        (by
          intro q p hp
          apply List.mem_cons_of_mem
          rcases List.mem_append.1 hp with h1 | h2
          · obtain ⟨e, he, rfl⟩ := List.mem_map.1 h1
            exact List.mem_flatMap.2 ⟨e, List.mem_of_mem_filter he, by simp⟩
          · obtain ⟨e, he, rfl⟩ := List.mem_map.1 h2
            exact List.mem_flatMap.2 ⟨e, List.mem_of_mem_filter he, by simp⟩)
        [q0] (by simp) [] []).map (fun res => (res.1, q0))
    | none =>
      match np_argmax column with
      | none => Except.error CxErr.emptyArgmax
      | some q0 =>
        (bfs_loop arch column.length inc (q0 :: U0)
          (by
            intro q p hp
            apply List.mem_cons_of_mem
            rcases List.mem_append.1 hp with h1 | h2
            · obtain ⟨e, he, rfl⟩ := List.mem_map.1 h1
              exact List.mem_flatMap.2 ⟨e, List.mem_of_mem_filter he, by simp⟩
            · obtain ⟨e, he, rfl⟩ := List.mem_map.1 h2
              exact List.mem_flatMap.2 ⟨e, List.mem_of_mem_filter he, by simp⟩)
          [q0] (by simp) [] []).map (fun res => (res.1, q0))
  else Except.error CxErr.nonBinary

/-!  ### The Steiner-Gray non-cutting synthesis
(`synth/steiner_gray_nc.py`).

The circuit sink `PauliCircuit` (`pauli_circuit.py` is not in `src/`) is
modelled from the spec as an append-only gate list with a concatenation and an
inverse operation.  `PauliPolynomial.propagate` (`pauli_polynomial.py`, lines
127-131) is `def propagate(self, gate)` — it takes no column argument and
returns a fresh polynomial — yet every propagation call in
`steiner_gray_nc.py` is `pp.propagate(gate, columns_to_use)`, a `TypeError`
(3 positional arguments passed to a 2-parameter method); each such call site
is embedded as `SynthErr.propagateArity`, raised before the working
polynomial or the local circuit could change, exactly as in CPython. -/

/-- Modelled from the spec: the primitive emission calls of the circuit sink
(single-qubit basis gates, two-qubit CX, parametrized rotation). -/
inductive Gate where
  | h : ℕ → Gate
  | v : ℕ → Gate
  | vdg : ℕ → Gate
  | cx : ℕ → ℕ → Gate
  | rz : ℚ → ℕ → Gate
deriving DecidableEq, Repr

/-- Modelled from the spec: a `PauliCircuit` is its emitted gate sequence. -/
abbrev PauliCircuit := List Gate

/-- Inverse of a single gate (`H⁻¹ = H`, `V⁻¹ = V†`, `CX⁻¹ = CX`,
`Rz(a)⁻¹ = Rz(-a)`). -/
def Gate.inv : Gate → Gate
  | .h q => .h q
  | .v q => .vdg q
  | .vdg q => .v q
  | .cx a b => .cx a b
  | .rz a q => .rz (-a) q

/-- Modelled from the spec: `PauliCircuit.inverse`, the reversed sequence of
gate inverses. -/
def PauliCircuit.inverse (c : PauliCircuit) : PauliCircuit :=
  c.reverse.map Gate.inv

/-- The angles of the `rz` rotations of a circuit, in emission order. -/
def rzAngles (c : PauliCircuit) : List ℚ :=
  c.filterMap (fun g => match g with | .rz a _ => some a | _ => none)

/-- The exceptions `pauli_polynomial_steiner_gray_nc` can raise, plus
`fuelOut` for the recursion fuel of the embedding (the recursion depth is
bounded by twice the number of qubits, so the fuel `2 * num_qubits + 3`
passed at the entry point never runs out on paths the source reaches). -/
inductive SynthErr where
  | propagateArity : SynthErr
  | invalidPauli : SynthErr
  | invalidRecType : SynthErr
  | emptyScores : SynthErr
  | noNeighbours : SynthErr
  | fuelOut : SynthErr
deriving DecidableEq, Repr

/-- Modelled from the spec: `find_common_paulis(q, pp)`
(`pauliopt/pauli/synth/uccds.py` is not in `src/`): the one Pauli type shared
by every non-identity entry of qubit `q` across the polynomial's columns, if
there is exactly one such type. -/
def find_common_paulis (q : ℕ) (pp : PauliPolynomial) : Option Pauli :=
  match (pp.pauli_gadgets.map (fun g => g.paulis.getD q Pauli.I)).filter
      (fun p => p ≠ Pauli.I) with
  | [] => none
  | p :: rest => if rest.all (fun x => x == p) then some p else none

/-- Adjacency of `u` and `v` inside the subgraph of `G` induced by `nodes`. -/
def adjWithin (nodes : List ℕ) (G : Graph) (u v : ℕ) : Bool :=
  decide (u ∈ nodes) && decide (v ∈ nodes) && G.adj u v

/-- One step of the reachability closure inside the induced subgraph. -/
def reach_step (nodes : List ℕ) (G : Graph) (cur : List ℕ) : List ℕ :=
  nodes.filter (fun v => decide (v ∈ cur) || cur.any (fun u => adjWithin nodes G u v))

/-- Iterated reachability closure. -/
def reach_iter (nodes : List ℕ) (G : Graph) : ℕ → List ℕ → List ℕ
  | 0, cur => cur
  | k + 1, cur => reach_iter nodes G k (reach_step nodes G cur)

/-- `t` is reachable from `s` inside the subgraph induced by `nodes`. -/
def reachable (nodes : List ℕ) (G : Graph) (s t : ℕ) : Bool :=
  t ∈ reach_iter nodes G nodes.length (nodes.filter (fun v => v == s))

/-- Modelled from the spec: `is_cutting(q, G)`
(`pauliopt/pauli/clifford_tableau.py` is not in `src/`): `q` is a cut vertex
of the subgraph induced by `nodes` — some pair of remaining nodes is connected
through the subgraph but disconnected once `q` is removed. -/
def is_cutting (q : ℕ) (nodes : List ℕ) (G : Graph) : Bool :=
  let rest := nodes.filter (fun x => decide (x ≠ q))
  rest.any (fun a => rest.any (fun b =>
    reachable nodes G a b && !(reachable rest G a b)))

/-- Modelled from the spec: `G.subgraph(nodes).neighbors(row)`. -/
def graph_neighbors (G : Graph) (nodes : List ℕ) (row : ℕ) : List ℕ :=
  nodes.filter (fun v => decide (v ≠ row) && G.adj v row)

/-- The per-Pauli column count `len([col for col in columns_to_use if
pp.pauli_gadgets[col][q] == p])` used by `pick_row`. -/
def pauli_type_count (pp : PauliPolynomial) (cols : List ℕ) (q : ℕ)
    (p : Pauli) : ℕ :=
  (cols.filter (fun col => pp.pauliAt col q == p)).length

/-- The spread score `max(scores) - min(scores)` of `pick_row`. -/
def pick_row_score (pp : PauliPolynomial) (cols : List ℕ) (q : ℕ) : ℕ :=
  let i_score := pauli_type_count pp cols q Pauli.I
  let x_score := pauli_type_count pp cols q Pauli.X
  let y_score := pauli_type_count pp cols q Pauli.Y
  let z_score := pauli_type_count pp cols q Pauli.Z
  max (max (max i_score x_score) y_score) z_score -
    min (min (min i_score x_score) y_score) z_score

/-- `pick_row`: the first qubit of maximal spread score (`max` over an empty
score list raises `ValueError`, hence `none` on no candidates). -/
def pick_row (pp : PauliPolynomial) (cols qubits : List ℕ) : Option ℕ :=
  match qubits with
  | [] => none
  | q :: qs => some (qs.foldl
      (fun best q' =>
        if pick_row_score pp cols best < pick_row_score pp cols q' then q'
        else best) q)

/-- The inner validity test of `find_compatible_pair`: on every column the
entry at `q1` lies in `{I, p1}` exactly when the entry at `q2` lies in
`{I, p2}`. -/
def pair_valid (pp : PauliPolynomial) (cols : List ℕ) (q1 q2 : ℕ)
    (p1 p2 : Pauli) : Bool :=
  cols.all (fun l =>
    (decide (pp.pauliAt l q1 = Pauli.I) || decide (pp.pauliAt l q1 = p1)) ==
    (decide (pp.pauliAt l q2 = Pauli.I) || decide (pp.pauliAt l q2 = p2)))

/-- `find_compatible_pair`: first valid `(p1, p2)` in the source's nested
`[X, Y, Z] × [X, Y, Z]` iteration order. -/
def find_compatible_pair (pp : PauliPolynomial) (q1 q2 : ℕ) (cols : List ℕ) :
    Option (Pauli × Pauli) :=
  (([Pauli.X, Pauli.Y, Pauli.Z].flatMap
    (fun p1 => [Pauli.X, Pauli.Y, Pauli.Z].map (fun p2 => (p1, p2))))).find?
    (fun pr => pair_valid pp cols q1 q2 pr.1 pr.2)

/-- `pick_best_pair`: scan the topology's edges for the first pair of
remaining qubits with a compatible Pauli pair. -/
def pick_best_pair (pp : PauliPolynomial) (G : Graph) (cols qubits : List ℕ) :
    Option ((Pauli × Pauli) × (ℕ × ℕ)) :=
  G.edges.findSome? (fun e =>
    if e.1 ∈ qubits ∧ e.2 ∈ qubits then
      (find_compatible_pair pp e.1 e.2 cols).map (fun pr => (pr, e))
    else none)

/-- `update_gadget_single_column`: for `X`/`Y` the source first builds the
basis-change gate and calls `pp.propagate(gate, columns_to_use)` — the
`TypeError` described above, raised before `qc.h`/`qc.v` could run; `Z` does
nothing; any other value raises `ValueError("Invalid Pauli")`. -/
def update_gadget_single_column (pp : PauliPolynomial) (q : ℕ) (p : Pauli)
    (cols : List ℕ) : Except SynthErr (List Gate) :=
  match pp, q, cols with
  | _, _, _ =>
    match p with
    | Pauli.X => Except.error SynthErr.propagateArity
    | Pauli.Y => Except.error SynthErr.propagateArity
    | Pauli.Z => Except.ok []
    | Pauli.I => Except.error SynthErr.invalidPauli

/-- `update_single_qubits`: apply `update_gadget_single_column` on every qubit
whose column restriction has one common Pauli type, accumulating the emitted
gates. -/
def update_single_qubits (pp : PauliPolynomial) (qubits cols : List ℕ) :
    Except SynthErr (List Gate) :=
  match qubits with
  | [] => Except.ok []
  | q :: qs => do
    let gs ← match find_common_paulis q pp with
      | some p => update_gadget_single_column pp q p cols
      | none => Except.ok []
    let rest ← update_single_qubits pp qs cols
    Except.ok (gs ++ rest)

/-- `update_pair_qubits`: when a compatible adjacent pair exists, the loop
body basis-changes both qubits and then calls
`pp.propagate(CX(q_1, q_2), columns_to_use)`, which raises the arity
`TypeError`; so the first found pair always aborts the synthesis, and with no
pair the loop exits immediately. -/
def update_pair_qubits (pp : PauliPolynomial) (topo : Topology)
    (qubits cols : List ℕ) : Except SynthErr (List Gate) :=
  match pick_best_pair pp topo.graph cols qubits with
  | none => Except.ok []
  | some ((p1, p2), (q1, q2)) => do
    let _ ← update_gadget_single_column pp q1 p1 cols
    let _ ← update_gadget_single_column pp q2 p2 cols
    (Except.error SynthErr.propagateArity : Except SynthErr Unit)
    Except.ok []

/-- `partition_pauli_polynomial`: bucket `columns_to_use` by the Pauli value
at `row`, preserving order. -/
def partition_pauli_polynomial (pp : PauliPolynomial) (row : ℕ) :
    List ℕ → List ℕ × List ℕ × List ℕ × List ℕ
  | [] => ([], [], [], [])
  | col :: rest =>
    let part := partition_pauli_polynomial pp row rest
    match pp.pauliAt col row with
    | Pauli.I => (col :: part.1, part.2.1, part.2.2.1, part.2.2.2)
    | Pauli.X => (part.1, col :: part.2.1, part.2.2.1, part.2.2.2)
    | Pauli.Y => (part.1, part.2.1, col :: part.2.2.1, part.2.2.2)
    | Pauli.Z => (part.1, part.2.1, part.2.2.1, col :: part.2.2.2)

/-- The choice made by `partition_pauli_polynomial_`: the two Pauli types
whose buckets merge, their concatenated columns, and the remaining type with
its bucket. -/
structure TwoPartition where
  type_two_1 : Pauli
  type_two_2 : Pauli
  cols_2 : List ℕ
  type_col1 : Pauli
  col1 : List ℕ
  score : ℕ
deriving DecidableEq, Repr

/-- `partition_pauli_polynomial_`: bucket by `row`, then pick among
`(X,Y | Z)`, `(X,Z | Y)`, `(Y,Z | X)` the first candidate of maximal combined
bucket size (Python's `max` keeps the first maximum). -/
def partition_pauli_polynomial_ (pp : PauliPolynomial) (row : ℕ)
    (cols : List ℕ) : List ℕ × TwoPartition :=
  let part := partition_pauli_polynomial pp row cols
  let col_x := part.2.1
  let col_y := part.2.2.1
  let col_z := part.2.2.2
  let c1 : TwoPartition := ⟨Pauli.X, Pauli.Y, col_x ++ col_y, Pauli.Z, col_z,
    col_x.length + col_y.length⟩
  let c2 : TwoPartition := ⟨Pauli.X, Pauli.Z, col_x ++ col_z, Pauli.Y, col_y,
    col_x.length + col_z.length⟩
  let c3 : TwoPartition := ⟨Pauli.Y, Pauli.Z, col_y ++ col_z, Pauli.X, col_x,
    col_y.length + col_z.length⟩
  let best1 := if c1.score < c2.score then c2 else c1
  let best := if best1.score < c3.score then c3 else best1
  (part.1, best)

/-- `apply_rotation`: optional basis change into `Z`, one `rz` per column in
order (each appending its column to `perm_gadgets`, returned here as the
second component), and the undoing basis change. -/
def apply_rotation (pp : PauliPolynomial) (cols : List ℕ) (row : ℕ)
    (rec_type : Pauli) : PauliCircuit × List ℕ :=
  let pre : List Gate :=
    if rec_type = Pauli.X then [Gate.h row]
    else if rec_type = Pauli.Y then [Gate.v row] else []
  let post : List Gate :=
    if rec_type = Pauli.X then [Gate.h row]
    else if rec_type = Pauli.Y then [Gate.vdg row] else []
  (pre ++ cols.map (fun col => Gate.rz (pp.gadget col).angle row) ++ post, cols)

mutual

/-- `identity_recurse`: eliminate a non-cutting qubit of maximal spread,
partition the columns by its Pauli value, recurse, and sandwich the branches
between the diagonalizing prefix's inverse and the prefix. -/
def identity_recurse (pp : PauliPolynomial) (topo : Topology) :
    ℕ → List ℕ → List ℕ → Except SynthErr (PauliCircuit × List ℕ)
  | 0, _, _ => Except.error SynthErr.fuelOut
  | fuel + 1, columns_to_use, qubits_to_use =>
    if columns_to_use.isEmpty then Except.ok ([], [])
    else do
      let diag_single ← update_single_qubits pp qubits_to_use columns_to_use
      let diag_pair ← update_pair_qubits pp topo qubits_to_use columns_to_use
      let qc_diag := diag_single ++ diag_pair
      let non_cutting := qubits_to_use.filter
        (fun q => !(is_cutting q qubits_to_use topo.graph))
      match pick_row pp columns_to_use non_cutting with
      | none => Except.error SynthErr.emptyScores
      | some row => do
        let part := partition_pauli_polynomial pp row columns_to_use
        let remaining_qubits := qubits_to_use.filter (fun q => decide (q ≠ row))
        let qciE := if remaining_qubits.isEmpty then
            Except.ok (apply_rotation pp part.1 row Pauli.I)
          else identity_recurse pp topo fuel part.1 remaining_qubits
        let qci ← qciE
        let qcx ← p_recurse pp topo fuel part.2.1 remaining_qubits row Pauli.X
        let qcy ← p_recurse pp topo fuel part.2.2.1 remaining_qubits row Pauli.Y
        let qcz ← p_recurse pp topo fuel part.2.2.2 remaining_qubits row Pauli.Z
        Except.ok (PauliCircuit.inverse qc_diag ++ qci.1 ++ qcx.1 ++ qcy.1 ++
            qcz.1 ++ qc_diag,
          qci.2 ++ qcx.2 ++ qcy.2 ++ qcz.2)
termination_by structural fuel cols qubits => fuel

/-- `p_recurse`: anchored at `row` with pending type `rec_type`; restrict to
topology neighbours of `row`, pick the next qubit, and dispatch the buckets to
`identity_recurse`/`check_identity`, `simplify_twp_p` and `simplify_one_p`
(the two `update_*` diagonalization calls are commented out in the source, so
`qc_diag` is empty here). -/
def p_recurse (pp : PauliPolynomial) (topo : Topology) :
    ℕ → List ℕ → List ℕ → ℕ → Pauli →
    Except SynthErr (PauliCircuit × List ℕ)
  | 0, _, _, _, _ => Except.error SynthErr.fuelOut
  | fuel + 1, columns_to_use, qubits_to_use, row, rec_type =>
    if rec_type = Pauli.I then Except.error SynthErr.invalidRecType
    else if columns_to_use.isEmpty then Except.ok ([], [])
    else if qubits_to_use.isEmpty then
      Except.ok (apply_rotation pp columns_to_use row rec_type)
    else
      let neighbours := graph_neighbors topo.graph (qubits_to_use ++ [row]) row
      if neighbours.isEmpty then Except.error SynthErr.noNeighbours
      else
        match pick_row pp columns_to_use neighbours with
        | none => Except.error SynthErr.emptyScores
        | some row_next => do
          let part := partition_pauli_polynomial_ pp row_next columns_to_use
          let remaining_qubits := qubits_to_use.filter
            (fun q => decide (q ≠ row_next))
          let qciE :=
            if !(is_cutting row_next (qubits_to_use ++ [row]) topo.graph) then
              identity_recurse pp topo fuel part.1 (remaining_qubits ++ [row])
            else
              check_identity pp topo fuel part.1 remaining_qubits row row_next
                rec_type
          let qci ← qciE
          let qc2 ← simplify_twp_p pp topo fuel part.2.cols_2 remaining_qubits
            row rec_type row_next part.2.type_two_1 part.2.type_two_2
          let qc1 ← simplify_one_p pp topo fuel part.2.col1 remaining_qubits
            row rec_type row_next part.2.type_col1
          Except.ok (qci.1 ++ qc2.1 ++ qc1.1, qci.2 ++ qc2.2 ++ qc1.2)
termination_by structural fuel cols qubits row rt => fuel

/-- `check_identity`: with columns present, `X`/`Y` anchors call
`pp.propagate(H/V(row), columns_to_use)` and every anchor then calls
`pp.propagate(CX(row_next, row), columns_to_use)` — each a `TypeError` at the
call, so any nonempty column set aborts; the recursive call and the
conjugation sandwich below are dead code kept for structure. -/
def check_identity (pp : PauliPolynomial) (topo : Topology) :
    ℕ → List ℕ → List ℕ → ℕ → ℕ → Pauli →
    Except SynthErr (PauliCircuit × List ℕ)
  | 0, _, _, _, _, _ => Except.error SynthErr.fuelOut
  | fuel + 1, columns_to_use, remaining_qubits, row, row_next, rec_type =>
    if columns_to_use.isEmpty then Except.ok ([], [])
    else
      let preE : Except SynthErr (List Gate) := match rec_type with
        | Pauli.X => Except.error SynthErr.propagateArity
        | Pauli.Y => Except.error SynthErr.propagateArity
        | _ => Except.ok []
      let cxPropagateE : Except SynthErr Unit :=
        Except.error SynthErr.propagateArity
      do
      let pre ← preE
      let _ ← cxPropagateE
      let qci ← p_recurse pp topo fuel columns_to_use remaining_qubits row_next
        Pauli.Z
      Except.ok (pre ++ [Gate.cx row_next row, Gate.cx row row_next] ++ qci.1 ++
          [Gate.cx row row_next, Gate.cx row_next row] ++
          (match rec_type with
            | Pauli.X => [Gate.h row] | Pauli.Y => [Gate.v row] | _ => []),
        qci.2)
termination_by structural fuel cols rq row rn rt => fuel

/-- `simplify_twp_p`: with columns present, the basis changes for the anchor
and the pair case propagate through the polynomial and then
`pp.propagate(CX(row, row_next), columns_to_use)` runs — each call the arity
`TypeError`, so any nonempty column set aborts; the split on the post-CX Pauli
at `row_next` and both recursions are dead code kept for structure. -/
def simplify_twp_p (pp : PauliPolynomial) (topo : Topology) :
    ℕ → List ℕ → List ℕ → ℕ → Pauli → ℕ → Pauli → Pauli →
    Except SynthErr (PauliCircuit × List ℕ)
  | 0, _, _, _, _, _, _, _ => Except.error SynthErr.fuelOut
  | fuel + 1, columns_to_use, remaining_qubits, row, rec_type, row_next,
      rec_type_next_1, rec_type_next_2 =>
    if columns_to_use.isEmpty then Except.ok ([], [])
    else
      let preE1 : Except SynthErr (List Gate) := match rec_type with
        | Pauli.X => Except.error SynthErr.propagateArity
        | Pauli.Y => Except.error SynthErr.propagateArity
        | _ => Except.ok []
      let preE2 : Except SynthErr (List Gate) :=
        if rec_type_next_1 = Pauli.X ∧ rec_type_next_2 = Pauli.Y then
          Except.error SynthErr.propagateArity
        else if rec_type_next_1 = Pauli.X ∧ rec_type_next_2 = Pauli.Z then
          Except.error SynthErr.propagateArity
        else Except.ok []
      let cxPropagateE : Except SynthErr Unit :=
        Except.error SynthErr.propagateArity
      do
      let pre1 ← preE1
      let pre2 ← preE2
      let _ ← cxPropagateE
      let columns_to_use_1 := columns_to_use.filter
        (fun col => pp.pauliAt col row_next == Pauli.Z)
      let columns_to_use_2 := columns_to_use.filter
        (fun col => pp.pauliAt col row_next == Pauli.Y)
      let qcz ← p_recurse pp topo fuel columns_to_use_1 remaining_qubits
        row_next Pauli.Z
      let qcy ← p_recurse pp topo fuel columns_to_use_2 remaining_qubits
        row_next Pauli.Y
      Except.ok (pre1 ++ pre2 ++ [Gate.cx row row_next] ++ qcz.1 ++ qcy.1 ++
          [Gate.cx row row_next], qcz.2 ++ qcy.2)
termination_by structural fuel cols rq row rt rn rt1 rt2 => fuel

/-- `simplify_one_p`: same abort pattern — basis changes then
`pp.propagate(CX(row, row_next), columns_to_use)`, each a `TypeError` — with
one recursion as dead code kept for structure. -/
def simplify_one_p (pp : PauliPolynomial) (topo : Topology) :
    ℕ → List ℕ → List ℕ → ℕ → Pauli → ℕ → Pauli →
    Except SynthErr (PauliCircuit × List ℕ)
  | 0, _, _, _, _, _, _ => Except.error SynthErr.fuelOut
  | fuel + 1, columns_to_use, remaining_qubits, row, rec_type, row_next,
      rec_type_next =>
    if columns_to_use.isEmpty then Except.ok ([], [])
    else
      let preE1 : Except SynthErr (List Gate) := match rec_type with
        | Pauli.X => Except.error SynthErr.propagateArity
        | Pauli.Y => Except.error SynthErr.propagateArity
        | _ => Except.ok []
      let preE2 : Except SynthErr (List Gate) := match rec_type_next with
        | Pauli.X => Except.error SynthErr.propagateArity
        | Pauli.Y => Except.error SynthErr.propagateArity
        | _ => Except.ok []
      let cxPropagateE : Except SynthErr Unit :=
        Except.error SynthErr.propagateArity
      do
      let pre1 ← preE1
      let pre2 ← preE2
      let _ ← cxPropagateE
      let qc ← p_recurse pp topo fuel columns_to_use remaining_qubits row_next
        Pauli.Z
      Except.ok (pre1 ++ pre2 ++ [Gate.cx row row_next] ++ qc.1 ++
          [Gate.cx row row_next], qc.2)
termination_by structural fuel cols rq row rt rn rtn => fuel

end

/-- `pauli_polynomial_steiner_gray_nc`: synthesize the polynomial over the
topology, returning the circuit, the emitted gadget order `perm_gadgets`, and
the qubit permutation (the dictionary `{k: k}` is never updated and is
returned as the list `[permutation[i] for i in range(num_qubits)]`). -/
def pauli_polynomial_steiner_gray_nc (pp : PauliPolynomial) (topo : Topology) :
    Except SynthErr (PauliCircuit × List ℕ × List ℕ) := do
  let remaining_columns := List.range pp.num_gadgets
  let permutation : ℕ → ℕ := fun k => k
  let res ← identity_recurse pp topo (2 * pp.num_qubits + 3) remaining_columns
    (List.range pp.num_qubits)
  Except.ok (res.1, res.2, (List.range pp.num_qubits).map permutation)

/-- Number of active qubits of an indicator column (positions with a nonzero
entry). -/
def active_count (column : List ℤ) : ℕ :=
  ((List.range column.length).filter
    (fun i => decide (column.getD i 0 ≠ 0))).length

/-- Tree-shaped branch lists: each branch's parent endpoint is already
available (the root or an earlier child) and its child endpoint is fresh. -/
def treelike_from (avail : List ℕ) : List (ℕ × ℕ) → Prop
  | [] => True
  | e :: rest => e.1 ∈ avail ∧ e.2 ∉ avail ∧ treelike_from (e.2 :: avail) rest

/-!  ## Lemmas -/

theorem filter_length_lt_of_mem {α : Type} (p : α → Bool) (l : List α) (x : α)
    (hx : x ∈ l) (hpx : ¬ p x = true) : (l.filter p).length < l.length := by
  induction l with
  | nil => cases hx
  | cons a t ih =>
    rcases List.mem_cons.1 hx with rfl | hmem
    · rw [List.filter_cons_of_neg hpx]
      exact Nat.lt_succ_of_le (List.length_filter_le _ _)
    · by_cases hpa : p a = true
      · rw [List.filter_cons_of_pos hpa]
        exact Nat.succ_lt_succ (ih hmem)
      · rw [List.filter_cons_of_neg hpa]
        exact Nat.lt_succ_of_lt (ih hmem)

theorem getD_mem_of_lt {α : Type} (l : List α) (i : ℕ) (d : α)
    (h : i < l.length) : l.getD i d ∈ l := by
  rw [List.getD_eq_getElem?_getD, List.getElem?_eq_getElem h]
  exact List.getElem_mem h

theorem getD_set_ne {α : Type} (l : List α) (i j : ℕ) (a d : α) (h : i ≠ j) :
    (l.set i a).getD j d = l.getD j d := by
  rw [List.getD_eq_getElem?_getD, List.getD_eq_getElem?_getD,
    List.getElem?_set_ne h]

/-- `PauliGadget.copy` is the identity on gadget values. -/
theorem PauliGadget.copy_eq (g : PauliGadget) : g.copy = g := rfl

theorem map_copy_eq (l : List PauliGadget) : l.map PauliGadget.copy = l := by
  rw [show PauliGadget.copy = id from funext PauliGadget.copy_eq, List.map_id]

theorem setAngle_length (poly : List PauliGadget) (i : ℕ) (a : ℚ) :
    (setAngle poly i a).length = poly.length := by
  simp [setAngle]

theorem setAngle_getD_zero (poly : List PauliGadget) (i : ℕ) :
    ((setAngle poly i 0).getD i default).angle = 0 := by
  unfold setAngle
  by_cases h : i < poly.length
  · rw [List.getD_eq_getElem?_getD, List.getElem?_set_self (by simpa using h)]
    rfl
  · rw [List.getD_eq_getElem?_getD, List.getElem?_eq_none]
    · rfl
    · simpa using Nat.le_of_not_lt h

theorem find_machting_lt (idx r : ℕ) (poly : List PauliGadget)
    (h : find_machting_parity_right idx poly = some r) :
    idx < r ∧ r < poly.length := by
  unfold find_machting_parity_right at h
  rcases hf : (poly.drop (idx + 1)).findIdx?
      (fun g => paulisMatch (poly.getD idx default) g) with _ | i
  · rw [hf] at h; cases h
  · rw [hf] at h
    have hi : i < (poly.drop (idx + 1)).length :=
      (List.findIdx?_eq_some_iff_findIdx_eq.1 hf).1
    rw [List.length_drop] at hi
    cases h
    omega

theorem propagate_phase_step_length (poly : List PauliGadget) (idx : ℕ) :
    (propagate_phase_step poly idx).1.length = poly.length := by
  unfold propagate_phase_step
  rcases hf : find_machting_parity_right idx poly with _ | r
  · rfl
  · by_cases hc : is_commuting_region idx r poly = true
    · simp [hc, setAngle_length]
    · simp [hc]

theorem propagate_phase_step_true (poly : List PauliGadget) (idx : ℕ)
    (h : (propagate_phase_step poly idx).2 = true) :
    (propagate_phase_step poly idx).1 = poly := by
  unfold propagate_phase_step at h ⊢
  rcases hf : find_machting_parity_right idx poly with _ | r
  · rfl
  · rw [hf] at h
    by_cases hc : is_commuting_region idx r poly = true
    · simp [hc] at h
    · simp [hc]

/-- The `propagate_phase_gadegts` fold body. -/
def phase_fold_body (acc : List PauliGadget × Bool) (idx : ℕ) :
    List PauliGadget × Bool :=
  let step := propagate_phase_step acc.1 idx
  (step.1, acc.2 && step.2)

theorem propagate_phase_gadegts_eq_fold (p : List PauliGadget) :
    propagate_phase_gadegts p = (List.range p.length).foldl phase_fold_body
      (p, true) := rfl

theorem phase_fold_length (L : List ℕ) (acc : List PauliGadget × Bool) :
    (L.foldl phase_fold_body acc).1.length = acc.1.length := by
  induction L generalizing acc with
  | nil => rfl
  | cons i t ih =>
    rw [List.foldl_cons, ih]
    exact propagate_phase_step_length acc.1 i

theorem phase_fold_true (L : List ℕ) (acc : List PauliGadget × Bool)
    (h : (L.foldl phase_fold_body acc).2 = true) :
    (L.foldl phase_fold_body acc).1 = acc.1 ∧ acc.2 = true := by
  induction L generalizing acc with
  | nil => exact ⟨rfl, h⟩
  | cons i t ih =>
    rw [List.foldl_cons] at h ⊢
    obtain ⟨h1, h2⟩ := ih _ h
    have hstep : (propagate_phase_step acc.1 i).2 = true := by
      unfold phase_fold_body at h2
      simp only [Bool.and_eq_true] at h2
      exact h2.2
    have hacc : acc.2 = true := by
      unfold phase_fold_body at h2
      simp only [Bool.and_eq_true] at h2
      exact h2.1
    refine ⟨?_, hacc⟩
    rw [h1]
    show (propagate_phase_step acc.1 i).1 = acc.1
    exact propagate_phase_step_true acc.1 i hstep

theorem propagate_phase_gadegts_length (p : List PauliGadget) :
    (propagate_phase_gadegts p).1.length = p.length := by
  rw [propagate_phase_gadegts_eq_fold]
  exact phase_fold_length _ _

theorem propagate_phase_gadegts_true (p : List PauliGadget)
    (h : (propagate_phase_gadegts p).2 = true) :
    (propagate_phase_gadegts p).1 = p := by
  rw [propagate_phase_gadegts_eq_fold] at h ⊢
  exact (phase_fold_true _ _ h).1

theorem phase_fold_false (b n : ℕ) :
    ∀ (a : ℕ) (acc : List PauliGadget × Bool), a + b ≤ n →
    acc.1.length = n →
    (acc.2 = false → ∃ j, j < a ∧ j < n ∧ (acc.1.getD j default).angle = 0) →
    ((List.range' a b).foldl phase_fold_body acc).2 = false →
    ∃ j, j < n ∧
      (((List.range' a b).foldl phase_fold_body acc).1.getD j default).angle
        = 0 := by
  induction b with
  | zero =>
    intro a acc _ _ hinv hfalse
    obtain ⟨j, hj1, hj2, hj3⟩ := hinv hfalse
    exact ⟨j, hj2, hj3⟩
  | succ b ih =>
    intro a acc hab hlen hinv hfalse
    rw [List.range'_succ, List.foldl_cons] at hfalse ⊢
    refine ih (a + 1) (phase_fold_body acc a) (by omega) ?_ ?_ hfalse
    · show (propagate_phase_step acc.1 a).1.length = n
      rw [propagate_phase_step_length]
      exact hlen
    · intro hf2
      unfold phase_fold_body at hf2 ⊢
      rcases Bool.and_eq_false_iff.1 hf2 with hacc | hstep
      · obtain ⟨j, hj1, hj2, hj3⟩ := hinv hacc
        refine ⟨j, by omega, hj2, ?_⟩
        show ((propagate_phase_step acc.1 a).1.getD j default).angle = 0
        unfold propagate_phase_step
        rcases hm : find_machting_parity_right a acc.1 with _ | r
        · exact hj3
        · by_cases hc : is_commuting_region a r acc.1 = true
          · obtain ⟨har, _⟩ := find_machting_lt a r acc.1 hm
            simp only [hc, if_pos]
            unfold setAngle
            rw [getD_set_ne _ _ _ _ _ (by omega),
              getD_set_ne _ _ _ _ _ (by omega)]
            exact hj3
          · simp only [hc]
            simp only [Bool.false_eq_true, ite_false]
            exact hj3
      · refine ⟨a, by omega, by omega, ?_⟩
        show ((propagate_phase_step acc.1 a).1.getD a default).angle = 0
        unfold propagate_phase_step at hstep ⊢
        rcases hm : find_machting_parity_right a acc.1 with _ | r
        · rw [hm] at hstep; cases hstep
        · rw [hm] at hstep
          by_cases hc : is_commuting_region a r acc.1 = true
          · simp only [hc, if_pos]
            exact setAngle_getD_zero _ a
          · simp [hc] at hstep

theorem propagate_phase_gadegts_false (p : List PauliGadget)
    (h : (propagate_phase_gadegts p).2 = false) :
    ∃ j, j < p.length ∧
      ((propagate_phase_gadegts p).1.getD j default).angle = 0 := by
  rw [propagate_phase_gadegts_eq_fold] at h ⊢
  rw [List.range_eq_range'] at h ⊢
  exact phase_fold_false p.length p.length 0 (p, true) (by omega) rfl
    (by intro hc; cases hc) h

theorem remove_collapsed_idem (l : List PauliGadget) :
    remove_collapsed_pauli_gadegts (remove_collapsed_pauli_gadegts l) =
      remove_collapsed_pauli_gadegts l := by
  unfold remove_collapsed_pauli_gadegts
  rw [List.filter_filter]
  congr 1
  funext a
  rw [Bool.and_self]

theorem remove_collapsed_nil :
    remove_collapsed_pauli_gadegts [] = [] := rfl

theorem remove_collapsed_cons_keep (g : PauliGadget) (l : List PauliGadget)
    (h1 : g.angle ≠ two_pi) (h2 : g.angle ≠ 0) :
    remove_collapsed_pauli_gadegts (g :: l) =
      g :: remove_collapsed_pauli_gadegts l :=
  List.filter_cons_of_pos (by simp only [decide_eq_true_eq]; exact ⟨h1, h2⟩)

theorem remove_collapsed_cons_drop (g : PauliGadget) (l : List PauliGadget)
    (h : g.angle = two_pi ∨ g.angle = 0) :
    remove_collapsed_pauli_gadegts (g :: l) =
      remove_collapsed_pauli_gadegts l :=
  List.filter_cons_of_neg (by
    simp only [decide_eq_true_eq]
    intro hcontra
    rcases h with h | h
    · exact hcontra.1 h
    · exact hcontra.2 h)

theorem remove_collapsed_lt (l : List PauliGadget)
    (h : ∃ j, j < l.length ∧ (l.getD j default).angle = 0) :
    (remove_collapsed_pauli_gadegts l).length < l.length := by
  obtain ⟨j, hj, hangle⟩ := h
  refine filter_length_lt_of_mem _ l (l.getD j default)
    (getD_mem_of_lt l j default hj) ?_
  intro hcontra
  exact (of_decide_eq_true hcontra).2 hangle

theorem simplify_go_succ (fuel : ℕ) (p : List PauliGadget) :
    simplify_go (fuel + 1) p =
      if (propagate_phase_gadegts (remove_collapsed_pauli_gadegts p)).2
      then (propagate_phase_gadegts (remove_collapsed_pauli_gadegts p)).1
      else simplify_go fuel
        (propagate_phase_gadegts (remove_collapsed_pauli_gadegts p)).1 := rfl

theorem simplify_go_spec (fuel : ℕ) (p : List PauliGadget)
    (h : (remove_collapsed_pauli_gadegts p).length < fuel) :
    remove_collapsed_pauli_gadegts (simplify_go fuel p) = simplify_go fuel p ∧
    propagate_phase_gadegts (simplify_go fuel p) = (simplify_go fuel p, true)
    := by
  induction fuel generalizing p with
  | zero => omega
  | succ fuel ih =>
    rw [simplify_go_succ]
    rcases hp : (propagate_phase_gadegts (remove_collapsed_pauli_gadegts p)).2
      with _ | _
    · simp only [Bool.false_eq_true, ite_false]
      apply ih
      obtain ⟨j, hj, hangle⟩ :=
        propagate_phase_gadegts_false (remove_collapsed_pauli_gadegts p) hp
      have hlen := propagate_phase_gadegts_length
        (remove_collapsed_pauli_gadegts p)
      have h1 := remove_collapsed_lt
        (propagate_phase_gadegts (remove_collapsed_pauli_gadegts p)).1
        ⟨j, by omega, hangle⟩
      omega
    · simp only [ite_true]
      have heq := propagate_phase_gadegts_true _ hp
      rw [heq]
      exact ⟨remove_collapsed_idem p, Prod.ext heq hp⟩

theorem simplify_go_fixpoint (fuel : ℕ) (p : List PauliGadget)
    (h1 : remove_collapsed_pauli_gadegts p = p)
    (h2 : propagate_phase_gadegts p = (p, true)) :
    simplify_go (fuel + 1) p = p := by
  rw [simplify_go_succ, h1, h2]
  rfl

theorem simplify_result (pp : PauliPolynomial) :
    simplify_pauli_polynomial pp =
      ⟨pp.num_qubits,
       simplify_go (pp.pauli_gadgets.length + 1) pp.pauli_gadgets⟩ := by
  show PauliPolynomial.mk _ _ = _
  rw [map_copy_eq]

theorem simplify_gadgets_spec (pp : PauliPolynomial) :
    remove_collapsed_pauli_gadegts (simplify_pauli_polynomial pp).pauli_gadgets
      = (simplify_pauli_polynomial pp).pauli_gadgets ∧
    propagate_phase_gadegts (simplify_pauli_polynomial pp).pauli_gadgets =
      ((simplify_pauli_polynomial pp).pauli_gadgets, true) := by
  rw [simplify_result]
  exact simplify_go_spec _ _
    (Nat.lt_succ_of_le (List.length_filter_le _ _))

/-- **C6.** `simplify_pauli_polynomial` is idempotent: a second application
returns the same polynomial (same Pauli strings and angles in the same
order). -/
theorem simplify_pauli_polynomial_idempotent (pp : PauliPolynomial) :
    simplify_pauli_polynomial (simplify_pauli_polynomial pp) =
      simplify_pauli_polynomial pp := by
  obtain ⟨h1, h2⟩ := simplify_gadgets_spec pp
  rw [simplify_result (simplify_pauli_polynomial pp)]
  have hfix := simplify_go_fixpoint
    (simplify_pauli_polynomial pp).pauli_gadgets.length
    (simplify_pauli_polynomial pp).pauli_gadgets h1 h2
  rw [hfix]

/-- **C4, counterexample.** The angle `2 * (2 * np.pi)` is a nonzero integer
multiple of the full rotation period, yet `simplify_pauli_polynomial` keeps
its gadget: the collapse comparison is against exactly `0` and `2 * np.pi`,
not against congruence modulo the period. -/
theorem simplify_keeps_angle_two_periods :
    (2 * two_pi = ((2 : ℤ) : ℚ) * two_pi ∧ two_pi ≠ 0) ∧
    simplify_pauli_polynomial ⟨1, [⟨2 * two_pi, [Pauli.Z]⟩]⟩ =
      ⟨1, [⟨2 * two_pi, [Pauli.Z]⟩]⟩ := by
  refine ⟨⟨by norm_num, by norm_num [two_pi, np_pi]⟩, ?_⟩
  rw [simplify_result]
  show PauliPolynomial.mk 1 (simplify_go 2 _) = _
  rw [simplify_go_succ,
    remove_collapsed_cons_keep _ _ (by norm_num [two_pi, np_pi])
      (by norm_num [two_pi, np_pi]), remove_collapsed_nil]
  rfl

/-- **C4, amended.** The collapse filter of `simplify_pauli_polynomial`
removes exactly the gadgets whose angle (at filter time) is exactly `0` or
exactly `2 * np.pi` — the comparison is exact, with no epsilon and no
reduction modulo the period — and consequently every gadget of the returned
polynomial has an angle different from `0` and from `2 * np.pi`. -/
theorem remove_collapsed_exact :
    (∀ (l : List PauliGadget) (g : PauliGadget),
      g ∈ remove_collapsed_pauli_gadegts l ↔
        g ∈ l ∧ g.angle ≠ two_pi ∧ g.angle ≠ 0) ∧
    (∀ (pp : PauliPolynomial) (g : PauliGadget),
      g ∈ (simplify_pauli_polynomial pp).pauli_gadgets →
        g.angle ≠ two_pi ∧ g.angle ≠ 0) := by
  constructor
  · intro l g
    unfold remove_collapsed_pauli_gadegts
    rw [List.mem_filter, decide_eq_true_eq]
  · intro pp g hg
    have h1 := (simplify_gadgets_spec pp).1
    rw [← h1] at hg
    unfold remove_collapsed_pauli_gadegts at hg
    exact of_decide_eq_true (List.mem_filter.1 hg).2

/-- Witness for `remove_collapsed_exact`: its second part applied to the
polynomial with the single gadget `PPhase(1) @ [Z]`, which simplifies to
itself. -/
theorem remove_collapsed_exact_witness :
    ((⟨1, [Pauli.Z]⟩ : PauliGadget) ∈
      (simplify_pauli_polynomial ⟨1, [⟨1, [Pauli.Z]⟩]⟩).pauli_gadgets) ∧
    ((1 : ℚ) ≠ two_pi ∧ (1 : ℚ) ≠ 0) := by
  have heval : (simplify_pauli_polynomial
      ⟨1, [⟨1, [Pauli.Z]⟩]⟩).pauli_gadgets = [⟨1, [Pauli.Z]⟩] := by
    rw [simplify_result]
    show (simplify_go 2 _) = _
    rw [simplify_go_succ,
      remove_collapsed_cons_keep _ _ (by norm_num [two_pi, np_pi])
        (by norm_num), remove_collapsed_nil]
    rfl
  have hmem : (⟨1, [Pauli.Z]⟩ : PauliGadget) ∈
      (simplify_pauli_polynomial ⟨1, [⟨1, [Pauli.Z]⟩]⟩).pauli_gadgets := by
    rw [heval]
    exact List.mem_singleton.2 rfl
  exact ⟨hmem, (remove_collapsed_exact.2 ⟨1, [⟨1, [Pauli.Z]⟩]⟩ ⟨1, [Pauli.Z]⟩
    hmem).1, (remove_collapsed_exact.2 ⟨1, [⟨1, [Pauli.Z]⟩]⟩ ⟨1, [Pauli.Z]⟩
    hmem).2⟩

/-- **C5, counterexample.** For `θ1 = 1`, `θ2 = -1` the two `[Z, Z]` gadgets
do merge, but the merged angle `θ1 + θ2 = 0` is then pruned by the collapse
filter, so the result is the empty polynomial rather than a single `[Z, Z]`
gadget of angle `θ1 + θ2`. -/
theorem simplify_zz_cancel_empty :
    (simplify_pauli_polynomial
      ⟨2, [⟨1, [Pauli.Z, Pauli.Z]⟩, ⟨-1, [Pauli.Z, Pauli.Z]⟩]⟩).pauli_gadgets
      = [] := by
  rw [simplify_result]
  show (simplify_go 3 _) = _
  rw [simplify_go_succ,
    remove_collapsed_cons_keep _ _ (by norm_num [two_pi, np_pi]) (by norm_num),
    remove_collapsed_cons_keep _ _ (by norm_num [two_pi, np_pi]) (by norm_num),
    remove_collapsed_nil]
  have hprop : propagate_phase_gadegts
      [⟨1, [Pauli.Z, Pauli.Z]⟩, ⟨-1, [Pauli.Z, Pauli.Z]⟩] =
      ([⟨0, [Pauli.Z, Pauli.Z]⟩, ⟨-1 + 1, [Pauli.Z, Pauli.Z]⟩], false) := by
    rfl
  rw [hprop]
  show (simplify_go 2 _) = _
  rw [simplify_go_succ,
    remove_collapsed_cons_drop _ _ (Or.inr rfl),
    remove_collapsed_cons_drop _ _ (Or.inr (by norm_num)),
    remove_collapsed_nil]
  rfl

/-- **C5, amended.** (i) When `remaining_poly[idx]` has a matching Pauli
string at `idx_right` and commutes with every gadget at positions
`idx ≤ k < idx_right`, the pass adds its angle into the right gadget and
zeroes the left angle.  (ii) Hence two `[Z, Z]` gadgets of angles `θ1`, `θ2`
simplify to the single gadget `[Z, Z]` of angle `θ1 + θ2` — provided neither
angle and their sum is exactly `2π` and the sum is nonzero, otherwise the
collapse filter also prunes the merged gadget. -/
theorem propagate_merge_rule_and_zz_scenario :
    (∀ (poly : List PauliGadget) (idx idx_right : ℕ),
      find_machting_parity_right idx poly = some idx_right →
      is_commuting_region idx idx_right poly = true →
      propagate_phase_step poly idx =
        (setAngle (setAngle poly idx_right
            ((poly.getD idx_right default).angle +
             (poly.getD idx default).angle)) idx 0, false)) ∧
    (∀ θ1 θ2 : ℚ, θ1 ≠ two_pi → θ2 ≠ two_pi → θ1 + θ2 ≠ 0 →
      θ1 + θ2 ≠ two_pi →
      simplify_pauli_polynomial
        ⟨2, [⟨θ1, [Pauli.Z, Pauli.Z]⟩, ⟨θ2, [Pauli.Z, Pauli.Z]⟩]⟩ =
        ⟨2, [⟨θ1 + θ2, [Pauli.Z, Pauli.Z]⟩]⟩) := by
  constructor
  · intro poly idx idx_right hf hc
    unfold propagate_phase_step
    rw [hf]
    dsimp only
    rw [if_pos hc]
  · intro θ1 θ2 ht1 ht2 hs hstp
    rw [simplify_result]
    show PauliPolynomial.mk 2 (simplify_go 3 _) = _
    by_cases h1 : θ1 = 0
    · subst h1
      have h2 : θ2 ≠ 0 := by intro h; rw [h] at hs; exact hs (by ring)
      rw [simplify_go_succ]
      have hrc : remove_collapsed_pauli_gadegts
          [⟨0, [Pauli.Z, Pauli.Z]⟩, ⟨θ2, [Pauli.Z, Pauli.Z]⟩] =
          [⟨θ2, [Pauli.Z, Pauli.Z]⟩] := by
        unfold remove_collapsed_pauli_gadegts
        rw [List.filter_cons_of_neg (by simp), List.filter_cons_of_pos
          (by simp only [decide_eq_true_eq]; exact ⟨ht2, h2⟩),
          List.filter_nil]
      rw [hrc]
      have hp1 : propagate_phase_gadegts [⟨θ2, [Pauli.Z, Pauli.Z]⟩] =
          ([⟨θ2, [Pauli.Z, Pauli.Z]⟩], true) := rfl
      rw [hp1]
      show PauliPolynomial.mk 2 [⟨θ2, [Pauli.Z, Pauli.Z]⟩] = _
      rw [zero_add]
    · by_cases h2 : θ2 = 0
      · subst h2
        rw [simplify_go_succ]
        have hrc : remove_collapsed_pauli_gadegts
            [⟨θ1, [Pauli.Z, Pauli.Z]⟩, ⟨0, [Pauli.Z, Pauli.Z]⟩] =
            [⟨θ1, [Pauli.Z, Pauli.Z]⟩] := by
          unfold remove_collapsed_pauli_gadegts
          rw [List.filter_cons_of_pos
            (by simp only [decide_eq_true_eq]; exact ⟨ht1, h1⟩),
            List.filter_cons_of_neg (by simp), List.filter_nil]
        rw [hrc]
        have hp1 : propagate_phase_gadegts [⟨θ1, [Pauli.Z, Pauli.Z]⟩] =
            ([⟨θ1, [Pauli.Z, Pauli.Z]⟩], true) := rfl
        rw [hp1]
        show PauliPolynomial.mk 2 [⟨θ1, [Pauli.Z, Pauli.Z]⟩] = _
        rw [add_zero]
      · rw [simplify_go_succ]
        have hrc : remove_collapsed_pauli_gadegts
            [⟨θ1, [Pauli.Z, Pauli.Z]⟩, ⟨θ2, [Pauli.Z, Pauli.Z]⟩] =
            [⟨θ1, [Pauli.Z, Pauli.Z]⟩, ⟨θ2, [Pauli.Z, Pauli.Z]⟩] := by
          unfold remove_collapsed_pauli_gadegts
          rw [List.filter_cons_of_pos
            (by simp only [decide_eq_true_eq]; exact ⟨ht1, h1⟩),
            List.filter_cons_of_pos
            (by simp only [decide_eq_true_eq]; exact ⟨ht2, h2⟩),
            List.filter_nil]
        rw [hrc]
        have hprop : propagate_phase_gadegts
            [⟨θ1, [Pauli.Z, Pauli.Z]⟩, ⟨θ2, [Pauli.Z, Pauli.Z]⟩] =
            ([⟨0, [Pauli.Z, Pauli.Z]⟩, ⟨θ2 + θ1, [Pauli.Z, Pauli.Z]⟩],
             false) := by rfl
        rw [hprop]
        show PauliPolynomial.mk 2 (simplify_go 2 _) = _
        rw [simplify_go_succ]
        have hrc2 : remove_collapsed_pauli_gadegts
            [⟨0, [Pauli.Z, Pauli.Z]⟩, ⟨θ2 + θ1, [Pauli.Z, Pauli.Z]⟩] =
            [⟨θ2 + θ1, [Pauli.Z, Pauli.Z]⟩] := by
          unfold remove_collapsed_pauli_gadegts
          rw [List.filter_cons_of_neg (by simp), List.filter_cons_of_pos
            (by
              simp only [decide_eq_true_eq]
              constructor
              · intro h; exact hstp (by linarith)
              · intro h; exact hs (by linarith)),
            List.filter_nil]
        rw [hrc2]
        have hprop2 : propagate_phase_gadegts
            [⟨θ2 + θ1, [Pauli.Z, Pauli.Z]⟩] =
            ([⟨θ2 + θ1, [Pauli.Z, Pauli.Z]⟩], true) := by rfl
        rw [hprop2]
        show PauliPolynomial.mk 2 [⟨θ2 + θ1, [Pauli.Z, Pauli.Z]⟩] = _
        rw [add_comm θ2 θ1]

/-!  Lemmas for the heap embedding (claim C10). -/

theorem heapRead_write_ne (h : Heap) (r i : ℕ) (g : PauliGadget)
    (hne : r ≠ i) : heapRead (heapWrite h r g) i = heapRead h i :=
  getD_set_ne h r i g default hne

theorem propagate_step_refs_frame (h : Heap) (refs : List ℕ) (idx N : ℕ)
    (href : ∀ r ∈ refs, N ≤ r) (i : ℕ) (hi : i < N) :
    heapRead (propagate_phase_step_refs h refs idx).1 i = heapRead h i := by
  unfold propagate_phase_step_refs
  dsimp only
  rcases hm : find_machting_parity_right idx (refs.map (heapRead h))
    with _ | r
  · rfl
  · obtain ⟨hir, hlt⟩ := find_machting_lt _ _ _ hm
    rw [List.length_map] at hlt
    by_cases hc : is_commuting_region idx r (refs.map (heapRead h)) = true
    · simp only [hc, if_pos]
      have hmem1 : refs.getD idx 0 ∈ refs :=
        getD_mem_of_lt refs idx 0 (by omega)
      have hmem2 : refs.getD r 0 ∈ refs := getD_mem_of_lt refs r 0 hlt
      rw [heapRead_write_ne _ _ _ _ (by have := href _ hmem1; omega),
        heapRead_write_ne _ _ _ _ (by have := href _ hmem2; omega)]
    · simp only [hc]
      simp only [Bool.false_eq_true, ite_false]

/-- The `propagate_phase_refs` fold body. -/
def phase_refs_fold_body (refs : List ℕ) (acc : Heap × Bool) (idx : ℕ) :
    Heap × Bool :=
  let step := propagate_phase_step_refs acc.1 refs idx
  (step.1, acc.2 && step.2)

theorem propagate_phase_refs_eq_fold (h : Heap) (refs : List ℕ) :
    propagate_phase_refs h refs =
      (List.range refs.length).foldl (phase_refs_fold_body refs) (h, true) :=
  rfl

theorem phase_refs_fold_frame (refs : List ℕ) (N : ℕ)
    (href : ∀ r ∈ refs, N ≤ r) (L : List ℕ) :
    ∀ (acc : Heap × Bool) (i : ℕ), i < N →
    heapRead ((L.foldl (phase_refs_fold_body refs) acc).1) i =
      heapRead acc.1 i := by
  induction L with
  | nil => intro acc i hi; rfl
  | cons a t ih =>
    intro acc i hi
    rw [List.foldl_cons, ih _ i hi]
    exact propagate_step_refs_frame acc.1 refs a N href i hi

theorem propagate_refs_frame (h : Heap) (refs : List ℕ) (N : ℕ)
    (href : ∀ r ∈ refs, N ≤ r) (i : ℕ) (hi : i < N) :
    heapRead (propagate_phase_refs h refs).1 i = heapRead h i := by
  rw [propagate_phase_refs_eq_fold]
  exact phase_refs_fold_frame refs N href _ (h, true) i hi

theorem simplify_go_refs_succ (fuel : ℕ) (h : Heap) (refs : List ℕ) :
    simplify_go_refs (fuel + 1) h refs =
      if (propagate_phase_refs h (remove_collapsed_refs h refs)).2
      then ((propagate_phase_refs h (remove_collapsed_refs h refs)).1,
            remove_collapsed_refs h refs)
      else simplify_go_refs fuel
        (propagate_phase_refs h (remove_collapsed_refs h refs)).1
        (remove_collapsed_refs h refs) := rfl

theorem simplify_go_refs_frame (fuel : ℕ) :
    ∀ (h : Heap) (refs : List ℕ) (N : ℕ), (∀ r ∈ refs, N ≤ r) →
    ∀ i < N, heapRead (simplify_go_refs fuel h refs).1 i = heapRead h i := by
  induction fuel with
  | zero => intro h refs N _ i _; rfl
  | succ fuel ih =>
    intro h refs N href i hi
    rw [simplify_go_refs_succ]
    have href1 : ∀ r ∈ remove_collapsed_refs h refs, N ≤ r := by
      intro r hr
      exact href r (List.mem_of_mem_filter hr)
    rcases hp : (propagate_phase_refs h (remove_collapsed_refs h refs)).2
      with _ | _
    · simp only [hp, Bool.false_eq_true, ite_false]
      rw [ih _ _ N href1 i hi]
      exact propagate_refs_frame h _ N href1 i hi
    · simp only [hp, ite_true]
      exact propagate_refs_frame h _ N href1 i hi

/-- **C10.** `simplify_pauli_polynomial` never modifies its input polynomial:
it allocates a fresh copy of every gadget object (`gadet.copy()` duplicates
the Pauli list) and all angle assignments of the merging passes write only to
those fresh cells, so after the call every gadget object of the input
polynomial still holds its original angle and Pauli string. -/
theorem simplify_heap_preserves_input (h : Heap) (pp : HeapPolynomial)
    (hwf : ∀ r ∈ pp.gadget_refs, r < h.length) :
    pp.gadget_refs.map
      (fun r => heapRead (simplify_pauli_polynomial_heap h pp).1 r) =
    pp.gadget_refs.map (fun r => heapRead h r) := by
  apply List.map_congr_left
  intro r hr
  have hcopy : copy_gadgets h pp.gadget_refs =
      (h ++ pp.gadget_refs.map (fun r => (heapRead h r).copy),
       List.range' h.length pp.gadget_refs.length) := rfl
  show heapRead (simplify_go_refs ((copy_gadgets h pp.gadget_refs).2.length + 1)
    (copy_gadgets h pp.gadget_refs).1 (copy_gadgets h pp.gadget_refs).2).1 r
    = heapRead h r
  rw [hcopy]
  have hfresh : ∀ x ∈ List.range' h.length pp.gadget_refs.length,
      h.length ≤ x := by
    intro x hx
    exact (List.mem_range'_1.1 hx).1
  rw [simplify_go_refs_frame _ _ _ h.length hfresh r (hwf r hr)]
  show (h ++ _).getD r default = h.getD r default
  exact List.getD_append _ _ _ _ (hwf r hr)

/-- Witness for `simplify_heap_preserves_input`: a one-cell heap holding the
gadget `PPhase(1) @ [Z]` and the polynomial referencing it. -/
theorem simplify_heap_preserves_input_witness :
    (∀ r ∈ [0], r < ([⟨1, [Pauli.Z]⟩] : Heap).length) ∧
    ([0].map (fun r =>
        heapRead (simplify_pauli_polynomial_heap [⟨1, [Pauli.Z]⟩]
          ⟨1, [0]⟩).1 r) =
      [0].map (fun r => heapRead [⟨1, [Pauli.Z]⟩] r)) :=
  ⟨by decide, simplify_heap_preserves_input [⟨1, [Pauli.Z]⟩] ⟨1, [0]⟩
    (by decide)⟩

/-- Witness for `propagate_merge_rule_and_zz_scenario`: part (i) at the
two-gadget `[Z, Z]` list with angles `1`, `2`, part (ii) at `θ1 = 1`,
`θ2 = 2`. -/
theorem propagate_merge_rule_and_zz_scenario_witness :
    propagate_phase_step [⟨1, [Pauli.Z, Pauli.Z]⟩, ⟨2, [Pauli.Z, Pauli.Z]⟩] 0
      = ([⟨0, [Pauli.Z, Pauli.Z]⟩, ⟨2 + 1, [Pauli.Z, Pauli.Z]⟩], false) ∧
    simplify_pauli_polynomial
        ⟨2, [⟨1, [Pauli.Z, Pauli.Z]⟩, ⟨2, [Pauli.Z, Pauli.Z]⟩]⟩ =
      ⟨2, [⟨1 + 2, [Pauli.Z, Pauli.Z]⟩]⟩ := by
  constructor
  · have h := propagate_merge_rule_and_zz_scenario.1
      [⟨1, [Pauli.Z, Pauli.Z]⟩, ⟨2, [Pauli.Z, Pauli.Z]⟩] 0 1 (by rfl) (by rfl)
    rw [h]
    rfl
  · exact propagate_merge_rule_and_zz_scenario.2 1 2
      (by norm_num [two_pi, np_pi]) (by norm_num [two_pi, np_pi])
      (by norm_num) (by norm_num [two_pi, np_pi])

/-!  Lemmas for the synthesis claims (C1, C2, C9). -/

theorem except_bind_ok {α β : Type} {e : Except SynthErr α}
    {f : α → Except SynthErr β} {b : β} (h : (e >>= f) = Except.ok b) :
    ∃ a, e = Except.ok a ∧ f a = Except.ok b := by
  cases e with
  | error err =>
    simp only [bind, Except.bind] at h
    exact Except.noConfusion h
  | ok a => exact ⟨a, rfl, by simpa only [bind, Except.bind] using h⟩

theorem rzAngles_append (c1 c2 : PauliCircuit) :
    rzAngles (c1 ++ c2) = rzAngles c1 ++ rzAngles c2 :=
  List.filterMap_append c1 c2 _

theorem apply_rotation_emits (pp : PauliPolynomial) (cols : List ℕ) (row : ℕ)
    (t : Pauli) :
    (apply_rotation pp cols row t).2 = cols ∧
    rzAngles (apply_rotation pp cols row t).1 =
      cols.map (fun col => (pp.gadget col).angle) := by
  refine ⟨rfl, ?_⟩
  have hmap : ∀ cs : List ℕ, List.filterMap
      (fun g => match g with | Gate.rz a _ => some a | _ => none)
      (cs.map (fun col => Gate.rz (pp.gadget col).angle row)) =
      cs.map (fun col => (pp.gadget col).angle) := by
    intro cs
    induction cs with
    | nil => rfl
    | cons c cst ihc => simp only [List.map_cons, List.filterMap_cons, ihc]
  rcases t with _ | _ | _ | _ <;>
    simp [apply_rotation, rzAngles, List.filterMap_append, hmap]

theorem update_gadget_single_column_ok (pp : PauliPolynomial) (q : ℕ)
    (p : Pauli) (cols : List ℕ) (gs : List Gate)
    (h : update_gadget_single_column pp q p cols = Except.ok gs) : gs = [] := by
  cases p <;> simp only [update_gadget_single_column] at h
  · cases h
  · cases h
  · cases h
  · cases h; rfl

theorem update_single_qubits_ok (pp : PauliPolynomial) (qubits cols : List ℕ)
    (gs : List Gate) (h : update_single_qubits pp qubits cols = Except.ok gs) :
    gs = [] := by
  induction qubits generalizing gs with
  | nil =>
    simp only [update_single_qubits] at h
    cases h; rfl
  | cons q qs ih =>
    simp only [update_single_qubits] at h
    rcases hfc : find_common_paulis q pp with _ | p <;> rw [hfc] at h
    · obtain ⟨g1, hg1, h⟩ := except_bind_ok h
      obtain ⟨g2, hg2, h⟩ := except_bind_ok h
      cases h
      cases hg1
      rw [ih g2 hg2]
      rfl
    · obtain ⟨g1, hg1, h⟩ := except_bind_ok h
      obtain ⟨g2, hg2, h⟩ := except_bind_ok h
      cases h
      rw [update_gadget_single_column_ok pp q p cols g1 hg1, ih g2 hg2]
      rfl

theorem update_pair_qubits_ok (pp : PauliPolynomial) (topo : Topology)
    (qubits cols : List ℕ) (gs : List Gate)
    (h : update_pair_qubits pp topo qubits cols = Except.ok gs) : gs = [] := by
  unfold update_pair_qubits at h
  rcases hpick : pick_best_pair pp topo.graph cols qubits with _ | pr
  · rw [hpick] at h; cases h; rfl
  · rw [hpick] at h
    obtain ⟨⟨p1, p2⟩, q1, q2⟩ := pr
    obtain ⟨g1, hg1, h⟩ := except_bind_ok h
    obtain ⟨g2, hg2, h⟩ := except_bind_ok h
    obtain ⟨u, hu, h⟩ := except_bind_ok h
    cases hu

theorem perm_ins2 {α : Type} (i x y z : List α) (col : α) :
    (i ++ (col :: x) ++ y ++ z).Perm (col :: (i ++ x ++ y ++ z)) :=
  (List.perm_middle.append_right y).append_right z

theorem perm_ins3 {α : Type} (i x y z : List α) (col : α) :
    (i ++ x ++ (col :: y) ++ z).Perm (col :: (i ++ x ++ y ++ z)) :=
  List.perm_middle.append_right z

theorem perm_ins4 {α : Type} (i x y z : List α) (col : α) :
    (i ++ x ++ y ++ (col :: z)).Perm (col :: (i ++ x ++ y ++ z)) :=
  List.perm_middle

theorem partition_append_perm (pp : PauliPolynomial) (row : ℕ)
    (cols : List ℕ) :
    ((partition_pauli_polynomial pp row cols).1 ++
     (partition_pauli_polynomial pp row cols).2.1 ++
     (partition_pauli_polynomial pp row cols).2.2.1 ++
     (partition_pauli_polynomial pp row cols).2.2.2).Perm cols := by
  induction cols with
  | nil => rfl
  | cons col rest ih =>
    rcases hp : pp.pauliAt col row with _ | _ | _ | _ <;>
      simp only [partition_pauli_polynomial, hp]
    · exact List.Perm.cons col ih
    · exact (perm_ins2 _ _ _ _ col).trans (List.Perm.cons col ih)
    · exact (perm_ins3 _ _ _ _ col).trans (List.Perm.cons col ih)
    · exact (perm_ins4 _ _ _ _ col).trans (List.Perm.cons col ih)

theorem partition_variant_perm (pp : PauliPolynomial) (row : ℕ)
    (cols : List ℕ) :
    ((partition_pauli_polynomial_ pp row cols).1 ++
     (partition_pauli_polynomial_ pp row cols).2.cols_2 ++
     (partition_pauli_polynomial_ pp row cols).2.col1).Perm cols := by
  have hbase := partition_append_perm pp row cols
  unfold partition_pauli_polynomial_
  rcases hpart : partition_pauli_polynomial pp row cols with ⟨i, x, y, z⟩
  rw [hpart] at hbase
  dsimp only at hbase ⊢
  by_cases h1 : x.length + y.length < x.length + z.length <;>
    simp only [h1, ite_true, ite_false]
  · by_cases h2 : x.length + z.length < y.length + z.length <;>
      simp only [h2, ite_true, ite_false]
    · -- best = c3 : cols_2 = y ++ z, col1 = x
      refine List.Perm.trans ?_ hbase
      have ha1 : i ++ (y ++ z) ++ x = i ++ ((y ++ z) ++ x) := by
        simp [List.append_assoc]
      have ha2 : i ++ x ++ y ++ z = i ++ (x ++ (y ++ z)) := by
        simp [List.append_assoc]
      rw [ha1, ha2]
      exact List.Perm.append_left i List.perm_append_comm
    · -- best = c2 : cols_2 = x ++ z, col1 = y
      refine List.Perm.trans ?_ hbase
      have ha1 : i ++ (x ++ z) ++ y = i ++ (x ++ (z ++ y)) := by
        simp [List.append_assoc]
      have ha2 : i ++ x ++ y ++ z = i ++ (x ++ (y ++ z)) := by
        simp [List.append_assoc]
      rw [ha1, ha2]
      exact List.Perm.append_left i
        (List.Perm.append_left x List.perm_append_comm)
  · by_cases h2 : x.length + y.length < y.length + z.length <;>
      simp only [h2, ite_true, ite_false]
    · -- best = c3
      refine List.Perm.trans ?_ hbase
      have ha1 : i ++ (y ++ z) ++ x = i ++ ((y ++ z) ++ x) := by
        simp [List.append_assoc]
      have ha2 : i ++ x ++ y ++ z = i ++ (x ++ (y ++ z)) := by
        simp [List.append_assoc]
      rw [ha1, ha2]
      exact List.Perm.append_left i List.perm_append_comm
    · -- best = c1 : cols_2 = x ++ y, col1 = z
      have ha1 : i ++ (x ++ y) ++ z = i ++ x ++ y ++ z := by
        simp [List.append_assoc]
      rw [ha1]
      exact hbase

/-- Combined success specification of the synthesis recursion: a normally
terminating call emits each of its columns exactly once (the emitted list is a
permutation of `columns_to_use`), the `rz` angles of its circuit are the
emitted gadgets' angles in emission order, and the three propagation-aborting
helpers can only succeed on an empty column set (with nothing emitted). -/
theorem synth_success_spec (fuel : ℕ) :
    (∀ (pp : PauliPolynomial) (topo : Topology) (cols qubits : List ℕ)
      (qc : PauliCircuit) (l : List ℕ),
      identity_recurse pp topo fuel cols qubits = Except.ok (qc, l) →
      l.Perm cols ∧ rzAngles qc = l.map (fun col => (pp.gadget col).angle)) ∧
    (∀ (pp : PauliPolynomial) (topo : Topology) (cols qubits : List ℕ)
      (row : ℕ) (t : Pauli) (qc : PauliCircuit) (l : List ℕ),
      p_recurse pp topo fuel cols qubits row t = Except.ok (qc, l) →
      l.Perm cols ∧ rzAngles qc = l.map (fun col => (pp.gadget col).angle)) ∧
    (∀ (pp : PauliPolynomial) (topo : Topology) (cols rq : List ℕ)
      (row rn : ℕ) (t : Pauli) (qc : PauliCircuit) (l : List ℕ),
      check_identity pp topo fuel cols rq row rn t = Except.ok (qc, l) →
      cols = [] ∧ qc = [] ∧ l = []) ∧
    (∀ (pp : PauliPolynomial) (topo : Topology) (cols rq : List ℕ)
      (row : ℕ) (t : Pauli) (rn : ℕ) (t1 t2 : Pauli) (qc : PauliCircuit)
      (l : List ℕ),
      simplify_twp_p pp topo fuel cols rq row t rn t1 t2 = Except.ok (qc, l) →
      cols = [] ∧ qc = [] ∧ l = []) ∧
    (∀ (pp : PauliPolynomial) (topo : Topology) (cols rq : List ℕ)
      (row : ℕ) (t : Pauli) (rn : ℕ) (tn : Pauli) (qc : PauliCircuit)
      (l : List ℕ),
      simplify_one_p pp topo fuel cols rq row t rn tn = Except.ok (qc, l) →
      cols = [] ∧ qc = [] ∧ l = []) := by
  induction fuel with
  | zero =>
    refine ⟨?_, ?_, ?_, ?_, ?_⟩
    · intro pp topo cols qubits qc l h
      exact Except.noConfusion h
    · intro pp topo cols qubits row t qc l h
      exact Except.noConfusion h
    · intro pp topo cols rq row rn t qc l h
      exact Except.noConfusion h
    · intro pp topo cols rq row t rn t1 t2 qc l h
      exact Except.noConfusion h
    · intro pp topo cols rq row t rn tn qc l h
      exact Except.noConfusion h
  | succ fuel ih =>
    obtain ⟨ihI, ihP, ihC, ihT, ihO⟩ := ih
    have hCheck : ∀ (pp : PauliPolynomial) (topo : Topology)
        (cols rq : List ℕ) (row rn : ℕ) (t : Pauli) (qc : PauliCircuit)
        (l : List ℕ),
        check_identity pp topo (fuel + 1) cols rq row rn t = Except.ok (qc, l)
        → cols = [] ∧ qc = [] ∧ l = [] := by
      intro pp topo cols rq row rn t qc l h
      simp only [check_identity] at h
      by_cases hc : cols.isEmpty = true
      · rw [if_pos hc] at h
        cases h
        exact ⟨List.isEmpty_iff.1 hc, rfl, rfl⟩
      · rw [if_neg hc] at h
        obtain ⟨pre, hpre, h⟩ := except_bind_ok h
        obtain ⟨u, hu, h⟩ := except_bind_ok h
        exact Except.noConfusion hu
    have hTwo : ∀ (pp : PauliPolynomial) (topo : Topology) (cols rq : List ℕ)
        (row : ℕ) (t : Pauli) (rn : ℕ) (t1 t2 : Pauli) (qc : PauliCircuit)
        (l : List ℕ),
        simplify_twp_p pp topo (fuel + 1) cols rq row t rn t1 t2 =
          Except.ok (qc, l) → cols = [] ∧ qc = [] ∧ l = [] := by
      intro pp topo cols rq row t rn t1 t2 qc l h
      simp only [simplify_twp_p] at h
      by_cases hc : cols.isEmpty = true
      · rw [if_pos hc] at h
        cases h
        exact ⟨List.isEmpty_iff.1 hc, rfl, rfl⟩
      · rw [if_neg hc] at h
        obtain ⟨pre1, hpre1, h⟩ := except_bind_ok h
        obtain ⟨pre2, hpre2, h⟩ := except_bind_ok h
        obtain ⟨u, hu, h⟩ := except_bind_ok h
        exact Except.noConfusion hu
    have hOne : ∀ (pp : PauliPolynomial) (topo : Topology) (cols rq : List ℕ)
        (row : ℕ) (t : Pauli) (rn : ℕ) (tn : Pauli) (qc : PauliCircuit)
        (l : List ℕ),
        simplify_one_p pp topo (fuel + 1) cols rq row t rn tn =
          Except.ok (qc, l) → cols = [] ∧ qc = [] ∧ l = [] := by
      intro pp topo cols rq row t rn tn qc l h
      simp only [simplify_one_p] at h
      by_cases hc : cols.isEmpty = true
      · rw [if_pos hc] at h
        cases h
        exact ⟨List.isEmpty_iff.1 hc, rfl, rfl⟩
      · rw [if_neg hc] at h
        obtain ⟨pre1, hpre1, h⟩ := except_bind_ok h
        obtain ⟨pre2, hpre2, h⟩ := except_bind_ok h
        obtain ⟨u, hu, h⟩ := except_bind_ok h
        exact Except.noConfusion hu
    have hP : ∀ (pp : PauliPolynomial) (topo : Topology) (cols qubits : List ℕ)
        (row : ℕ) (t : Pauli) (qc : PauliCircuit) (l : List ℕ),
        p_recurse pp topo (fuel + 1) cols qubits row t = Except.ok (qc, l) →
        l.Perm cols ∧ rzAngles qc = l.map (fun col => (pp.gadget col).angle)
        := by
      intro pp topo cols qubits row t qc l h
      simp only [p_recurse] at h
      by_cases ht : t = Pauli.I
      · rw [if_pos ht] at h
        exact Except.noConfusion h
      rw [if_neg ht] at h
      by_cases hc : cols.isEmpty = true
      · rw [if_pos hc] at h
        cases h
        rw [List.isEmpty_iff.1 hc]
        exact ⟨List.Perm.refl [], rfl⟩
      rw [if_neg hc] at h
      by_cases hq : qubits.isEmpty = true
      · rw [if_pos hq] at h
        injection h with h1
        obtain ⟨he1, he2⟩ := apply_rotation_emits pp cols row t
        rw [h1] at he1 he2
        dsimp only at he1 he2
        subst he1
        exact ⟨List.Perm.refl _, he2⟩
      rw [if_neg hq] at h
      by_cases hn : (graph_neighbors topo.graph (qubits ++ [row]) row).isEmpty
          = true
      · rw [if_pos hn] at h
        exact Except.noConfusion h
      rw [if_neg hn] at h
      rcases hrow : pick_row pp cols
          (graph_neighbors topo.graph (qubits ++ [row]) row) with _ | row_next
      · rw [hrow] at h
        exact Except.noConfusion h
      rw [hrow] at h
      obtain ⟨⟨qciC, qciL⟩, hqci, h⟩ := except_bind_ok h
      obtain ⟨⟨qc2C, qc2L⟩, hqc2, h⟩ := except_bind_ok h
      obtain ⟨⟨qc1C, qc1L⟩, hqc1, h⟩ := except_bind_ok h
      cases h
      obtain ⟨h2cols, h2qc, h2l⟩ := ihT _ _ _ _ _ _ _ _ _ _ _ hqc2
      obtain ⟨h1cols, h1qc, h1l⟩ := ihO _ _ _ _ _ _ _ _ _ _ hqc1
      have hIspec : qciL.Perm
          (partition_pauli_polynomial_ pp row_next cols).1 ∧
          rzAngles qciC = qciL.map (fun col => (pp.gadget col).angle) := by
        by_cases hcut : (!(is_cutting row_next (qubits ++ [row]) topo.graph))
            = true
        · rw [if_pos hcut] at hqci
          exact ihI _ _ _ _ _ _ hqci
        · rw [if_neg hcut] at hqci
          obtain ⟨hic, hiqc, hil⟩ := ihC _ _ _ _ _ _ _ _ _ hqci
          rw [hic, hil, hiqc]
          exact ⟨List.Perm.refl [], rfl⟩
      constructor
      · refine List.Perm.trans ?_ (partition_variant_perm pp row_next cols)
        rw [h2l, h1l, h2cols, h1cols]
        exact List.Perm.append (List.Perm.append hIspec.1 (List.Perm.refl []))
          (List.Perm.refl [])
      · rw [rzAngles_append, rzAngles_append, hIspec.2, h2qc, h1qc, h2l, h1l]
        simp only [rzAngles, List.filterMap_nil, List.map_nil,
          List.append_nil]
    refine ⟨?_, hP, hCheck, hTwo, hOne⟩
    intro pp topo cols qubits qc l h
    simp only [identity_recurse] at h
    by_cases hc : cols.isEmpty = true
    · rw [if_pos hc] at h
      cases h
      rw [List.isEmpty_iff.1 hc]
      exact ⟨List.Perm.refl [], rfl⟩
    rw [if_neg hc] at h
    obtain ⟨g1, hg1, h⟩ := except_bind_ok h
    obtain ⟨g2, hg2, h⟩ := except_bind_ok h
    rcases hrow : pick_row pp cols
        (qubits.filter (fun q => !(is_cutting q qubits topo.graph)))
        with _ | row
    · rw [hrow] at h
      exact Except.noConfusion h
    rw [hrow] at h
    obtain ⟨⟨qciC, qciL⟩, hqci, h⟩ := except_bind_ok h
    obtain ⟨⟨qcxC, qcxL⟩, hqcx, h⟩ := except_bind_ok h
    obtain ⟨⟨qcyC, qcyL⟩, hqcy, h⟩ := except_bind_ok h
    obtain ⟨⟨qczC, qczL⟩, hqcz, h⟩ := except_bind_ok h
    cases h
    have hg1nil := update_single_qubits_ok _ _ _ _ hg1
    have hg2nil := update_pair_qubits_ok _ _ _ _ _ hg2
    have hxs := ihP _ _ _ _ _ _ _ _ hqcx
    have hys := ihP _ _ _ _ _ _ _ _ hqcy
    have hzs := ihP _ _ _ _ _ _ _ _ hqcz
    have his : qciL.Perm (partition_pauli_polynomial pp row cols).1 ∧
        rzAngles qciC = qciL.map (fun col => (pp.gadget col).angle) := by
      by_cases hrem : (qubits.filter (fun q => decide (q ≠ row))).isEmpty
          = true
      · rw [if_pos hrem] at hqci
        injection hqci with h1
        obtain ⟨he1, he2⟩ := apply_rotation_emits pp
          (partition_pauli_polynomial pp row cols).1 row Pauli.I
        rw [h1] at he1 he2
        dsimp only at he1 he2
        rw [he1]
        exact ⟨List.Perm.refl _, he2⟩
      · rw [if_neg hrem] at hqci
        exact ihI _ _ _ _ _ _ hqci
    constructor
    · refine List.Perm.trans ?_ (partition_append_perm pp row cols)
      exact List.Perm.append (List.Perm.append
        (List.Perm.append his.1 hxs.1) hys.1) hzs.1
    · rw [hg1nil, hg2nil]
      rw [rzAngles_append, rzAngles_append, rzAngles_append, rzAngles_append,
        rzAngles_append]
      rw [his.2, hxs.2, hys.2, hzs.2]
      simp only [PauliCircuit.inverse, List.append_nil, List.reverse_nil,
        List.map_nil, rzAngles, List.filterMap_nil, List.nil_append,
        List.map_append]

/-- **C1 (code bug).** On the 2-qubit polynomial with the single gadget
`PPhase(1) @ [Z, Z]` over the complete 2-qubit topology, the first
diagonalization step finds the compatible pair `(X, X)` on edge `(0, 1)` and
runs `update_gadget_single_column`, whose first action is
`pp.propagate(H(0), columns_to_use)` — but `PauliPolynomial.propagate(self,
gate)` (pauli_polynomial.py lines 127-131) accepts no column argument and
returns a fresh polynomial instead of updating `pp` in place, so the call
raises `TypeError` and the synthesis aborts before any gate is accompanied by
an in-place propagation: the central invariant cannot be maintained by this
code. -/
theorem steiner_gray_propagate_call_aborts :
    pauli_polynomial_steiner_gray_nc ⟨2, [⟨1, [Pauli.Z, Pauli.Z]⟩]⟩
      (Topology.complete 2) = Except.error SynthErr.propagateArity := by
  rfl

/-- **C2.** Whenever `pauli_polynomial_steiner_gray_nc` terminates normally,
the returned `perm_gadgets` is a permutation of the input polynomial's gadget
indices (each column consumed exactly once), and it lists the emitted `rz`
rotations in emission order (the circuit's rotation angles are exactly the
gadgets' angles in `perm_gadgets` order). -/
theorem steiner_gray_perm_gadgets_complete (pp : PauliPolynomial)
    (topo : Topology) (circ : PauliCircuit) (perm qperm : List ℕ)
    (h : pauli_polynomial_steiner_gray_nc pp topo =
      Except.ok (circ, perm, qperm)) :
    perm.Perm (List.range pp.num_gadgets) ∧
    rzAngles circ = perm.map (fun col => (pp.gadget col).angle) := by
  unfold pauli_polynomial_steiner_gray_nc at h
  obtain ⟨⟨c, l⟩, hrec, h⟩ := except_bind_ok h
  cases h
  exact (synth_success_spec (2 * pp.num_qubits + 3)).1 pp topo _ _ _ _ hrec

/-- Witness for `steiner_gray_perm_gadgets_complete`: the 1-qubit polynomial
with the single gadget `PPhase(1) @ [Z]` synthesizes normally into one `rz`
rotation, with `perm_gadgets = [0]`. -/
theorem steiner_gray_perm_gadgets_complete_witness :
    pauli_polynomial_steiner_gray_nc ⟨1, [⟨1, [Pauli.Z]⟩]⟩
        (Topology.complete 1) = Except.ok ([Gate.rz 1 0], [0], [0]) ∧
    ([0] : List ℕ).Perm
      (List.range (⟨1, [⟨1, [Pauli.Z]⟩]⟩ : PauliPolynomial).num_gadgets) ∧
    rzAngles [Gate.rz 1 0] = ([0] : List ℕ).map
      (fun col =>
        ((⟨1, [⟨1, [Pauli.Z]⟩]⟩ : PauliPolynomial).gadget col).angle) :=
  ⟨rfl, steiner_gray_perm_gadgets_complete ⟨1, [⟨1, [Pauli.Z]⟩]⟩
    (Topology.complete 1) [Gate.rz 1 0] [0] [0] rfl⟩

/-- **C9.** Whenever `pauli_polynomial_steiner_gray_nc` terminates normally,
the returned qubit permutation is the identity list `[0, ..., n-1]`: the
dictionary `{k: k}` is never updated anywhere in the synthesis. -/
theorem steiner_gray_identity_qubit_permutation (pp : PauliPolynomial)
    (topo : Topology) (circ : PauliCircuit) (perm qperm : List ℕ)
    (h : pauli_polynomial_steiner_gray_nc pp topo =
      Except.ok (circ, perm, qperm)) :
    qperm = List.range pp.num_qubits := by
  unfold pauli_polynomial_steiner_gray_nc at h
  obtain ⟨res, hrec, h⟩ := except_bind_ok h
  cases h
  simp

/-- Witness for `steiner_gray_identity_qubit_permutation`: the empty 1-qubit
polynomial synthesizes normally and returns the identity permutation `[0]`. -/
theorem steiner_gray_identity_qubit_permutation_witness :
    pauli_polynomial_steiner_gray_nc ⟨1, []⟩ (Topology.complete 1) =
      Except.ok ([], [], [0]) ∧ ([0] : List ℕ) = List.range 1 :=
  ⟨rfl, steiner_gray_identity_qubit_permutation ⟨1, []⟩ (Topology.complete 1)
    [] [] [0] rfl⟩

theorem two_le_length_of_mem_ne {α : Type} {a b : α} {l : List α}
    (ha : a ∈ l) (hb : b ∈ l) (hab : a ≠ b) : 2 ≤ l.length := by
  cases l with
  | nil => cases ha
  | cons x t =>
    cases t with
    | nil =>
      rw [List.mem_singleton] at ha hb
      exact absurd (ha.trans hb.symm) hab
    | cons y u =>
      simp only [List.length_cons]
      omega

theorem build_edges_eq_nil (column : List ℤ) (arch : Topology)
    (hact : active_count column ≤ 1) : build_edges column arch = [] := by
  unfold build_edges
  rw [List.flatMap_eq_nil_iff]
  intro i hi
  rw [List.map_eq_nil_iff, List.filter_eq_nil_iff]
  intro j hj hp
  simp only [Bool.and_eq_true, decide_eq_true_eq] at hp
  obtain ⟨⟨hij, hi0⟩, hj0⟩ := hp
  have hmi : i ∈ (List.range column.length).filter
      (fun k => decide (column.getD k 0 ≠ 0)) :=
    List.mem_filter.2 ⟨hi, decide_eq_true hi0⟩
  have hmj : j ∈ (List.range column.length).filter
      (fun k => decide (column.getD k 0 ≠ 0)) :=
    List.mem_filter.2 ⟨hj, decide_eq_true hj0⟩
  have h2 := two_le_length_of_mem_ne hmi hmj (Nat.ne_of_lt hij)
  unfold active_count at hact
  omega

theorem prim_from_nil (fuel : ℕ) (v : List ℕ) (a : List (ℕ × ℕ)) :
    prim_from [] fuel v a = (v, a) := by
  cases fuel <;> rfl

theorem prim_all_nil (n : ℕ) : prim_all n [] = [] := by
  unfold prim_all
  have main : ∀ (L : List ℕ) (st : List ℕ × List (ℕ × ℕ)),
      ((L.foldl (fun st node => if node ∈ st.1 then st
        else prim_from [] n (st.1 ++ [node]) st.2) st)).2 = st.2 := by
    intro L
    induction L with
    | nil => intro st; rfl
    | cons a t ih =>
      intro st
      simp only [List.foldl_cons]
      by_cases h : a ∈ st.1
      · rw [if_pos h]
        exact ih st
      · rw [if_neg h, prim_from_nil]
        exact ih _
  exact main _ _

theorem bfs_loop_queue_nil (arch : Topology) (n : ℕ)
    (inc : ℕ → List (ℕ × ℕ))
    (U : List ℕ) (hInc : ∀ q p, p ∈ inc q → p.2 ∈ U)
    (h : ∀ x ∈ ([] : List ℕ), x ∈ U) (visited : List ℕ)
    (ladder : List (ℕ × ℕ)) :
    bfs_loop arch n inc U hInc [] h visited ladder =
      Except.ok (ladder, visited) := by
  rw [bfs_loop]

theorem bfs_loop_incident_nil (arch : Topology) (n : ℕ) (U : List ℕ)
    (hInc : ∀ q p, p ∈ incident [] q → p.2 ∈ U) (q0 : ℕ) (hq0 : q0 < n)
    (hq : ∀ x ∈ [q0], x ∈ U) :
    bfs_loop arch n (incident []) U hInc [q0] hq [] [] =
      Except.ok ([], [q0]) := by
  rw [bfs_loop, if_pos hq0]
  exact bfs_loop_queue_nil arch n (incident []) U hInc (by simp) _ _

theorem bfs_branches_nil (arch : Topology) (n : ℕ)
    (branches : List (ℕ × ℕ))
    (U : List ℕ) (hInc : ∀ q p, p ∈ incident branches q → p.2 ∈ U)
    (q0 : ℕ) (hq : ∀ x ∈ [q0], x ∈ U) (hq0 : q0 < n) (hb : branches = []) :
    bfs_loop arch n (incident branches) U hInc [q0] hq [] [] =
      Except.ok ([], [q0]) := by
  subst hb
  exact bfs_loop_incident_nil arch n U hInc q0 hq0 hq

theorem except_map_ok {ε α β : Type} (f : α → β) (e : Except ε α) (b : β)
    (h : Except.map f e = Except.ok b) : ∃ a, e = Except.ok a ∧ f a = b := by
  cases e with
  | error err =>
    simp only [Except.map] at h
    cases h
  | ok a =>
    simp only [Except.map] at h
    injection h with h1
    exact ⟨a, rfl, h1⟩

theorem except_map_error {ε α β : Type} (f : α → β) (x : Except ε α)
    (e : ε) (h : Except.map f x = Except.error e) : x = Except.error e := by
  cases x with
  | error e2 =>
    simp only [Except.map] at h
    injection h with h1
    rw [h1]
  | ok a =>
    simp only [Except.map] at h
    cases h

theorem bfs_loop_ne_error (arch : Topology) (n : ℕ)
    (inc : ℕ → List (ℕ × ℕ))
    (U : List ℕ) (hInc : ∀ q p, p ∈ inc q → p.2 ∈ U)
    (hUn : ∀ x ∈ U, x < n) :
    ∀ (queue : List ℕ) (hq : ∀ x ∈ queue, x ∈ U) (visited : List ℕ)
      (ladder : List (ℕ × ℕ)) (err : CxErr),
      bfs_loop arch n inc U hInc queue hq visited ladder ≠
        Except.error err := by
  intro queue hq visited ladder
  induction queue, hq, visited, ladder
    using bfs_loop.induct arch n inc U hInc with
  | case1 h1 visited ladder h2 =>
    intro err h
    rw [bfs_loop] at h
    cases h
  | case2 q rest hq visited ladder hqlt vis2 news hqU ih =>
    intro err h
    rw [bfs_loop, if_pos hqlt] at h
    exact ih err h
  | case3 q rest hq visited ladder hqge hqU =>
    intro err h
    exact absurd (hUn q (hq q (List.mem_cons_self _ _))) hqge

theorem np_argmax_aux_lt (xs : List ℤ) :
    ∀ (i best : ℕ) (bestv : ℤ), best < i →
      np_argmax_aux xs i best bestv < i + xs.length := by
  induction xs with
  | nil =>
    intro i best bestv hlt
    unfold np_argmax_aux
    simpa using hlt
  | cons x t ih =>
    intro i best bestv hlt
    unfold np_argmax_aux
    by_cases hc : bestv < x
    · rw [if_pos hc]
      have := ih (i+1) i x (Nat.lt_succ_self i)
      simp only [List.length_cons]
      omega
    · rw [if_neg hc]
      have := ih (i+1) best bestv (Nat.lt_succ_of_lt hlt)
      simp only [List.length_cons]
      omega

theorem np_argmax_lt_length (column : List ℤ) (a : ℕ)
    (h : np_argmax column = some a) : a < column.length := by
  cases column with
  | nil => cases h
  | cons x t =>
    injection h with h1
    have hlt := np_argmax_aux_lt t 1 0 x (Nat.lt_succ_self 0)
    rw [h1] at hlt
    simp only [List.length_cons]
    omega

/-- **C8.** On every binary indicator column with at most one active qubit,
and for every topology and optional root, a normally-returning
`find_minimal_cx_assignment` returns the empty CNOT ladder: with fewer than
two active qubits the weighted graph has no edge, the spanning structure is
empty, and the BFS pops the root and stops without emitting anything. -/
theorem find_minimal_few_active_ladder_empty (column : List ℤ)
    (arch : Topology) (q0opt : Option ℕ) (ladder : List (ℕ × ℕ)) (q0 : ℕ)
    (hbin : ∀ x ∈ column, x = 0 ∨ x = 1) (hact : active_count column ≤ 1)
    (h : find_minimal_cx_assignment column arch q0opt =
      Except.ok (ladder, q0)) : ladder = [] := by
  have hb : prim_all column.length (build_edges column arch) = [] := by
    rw [build_edges_eq_nil column arch hact]
    exact prim_all_nil column.length
  unfold find_minimal_cx_assignment at h
  rw [if_pos hbin] at h
  rcases q0opt with _ | q
  · rcases hargm : np_argmax column with _ | qa
    · rw [hargm] at h
      dsimp only at h
      cases h
    · rw [hargm] at h
      dsimp only at h
      have hqa : qa < column.length := np_argmax_lt_length column qa hargm
      rw [bfs_branches_nil arch column.length _ _ _ qa _ hqa hb] at h
      dsimp only [Except.map] at h
      injection h with h1
      injection h1 with h2 h3
      exact h2.symm
  · dsimp only at h
    by_cases hqn : q < column.length
    · rw [bfs_branches_nil arch column.length _ _ _ q _ hqn hb] at h
      dsimp only [Except.map] at h
      injection h with h1
      injection h1 with h2 h3
      exact h2.symm
    · rw [bfs_loop, if_neg hqn] at h
      dsimp only [Except.map] at h
      cases h

/-- Witness for `find_minimal_few_active_ladder_empty`: the column `[0, 1]`
has one active qubit; on the complete 2-qubit topology with root 1 the
assignment succeeds with an empty ladder. -/
theorem find_minimal_few_active_ladder_empty_witness :
    (∀ x ∈ ([0, 1] : List ℤ), x = 0 ∨ x = 1) ∧
    active_count [0, 1] ≤ 1 ∧ ([] : List (ℕ × ℕ)) = [] := by
  refine ⟨by decide, by decide, ?_⟩
  have hEq : find_minimal_cx_assignment [0, 1] (Topology.complete 2)
      (some 1) = Except.ok ([], 1) := by
    unfold find_minimal_cx_assignment
    rw [if_pos (by decide : ∀ x ∈ ([0, 1] : List ℤ), x = 0 ∨ x = 1)]
    dsimp only
    rw [bfs_loop, if_pos (by decide : 1 < ([0, 1] : List ℤ).length)]
    show Except.map (fun res : List (ℕ × ℕ) × List ℕ => (res.1, 1))
        (bfs_loop (Topology.complete 2) ([0, 1] : List ℤ).length
        (incident (prim_all ([0, 1] : List ℤ).length
          (build_edges [0, 1] (Topology.complete 2))))
        _ _ [] _ [1] []) = Except.ok ([], 1)
    rw [bfs_loop]
    rfl
  exact find_minimal_few_active_ladder_empty [0, 1] (Topology.complete 2)
    (some 1) [] 1 (by decide) (by decide) hEq

theorem treelike_from_congr (avail avail' : List ℕ) (l : List (ℕ × ℕ))
    (hset : ∀ x, x ∈ avail ↔ x ∈ avail') (h : treelike_from avail l) :
    treelike_from avail' l := by
  induction l generalizing avail avail' with
  | nil => exact trivial
  | cons e rest ih =>
    obtain ⟨h1, h2, h3⟩ := h
    refine ⟨(hset e.1).1 h1, fun hm => h2 ((hset e.2).2 hm), ?_⟩
    refine ih (e.2 :: avail) (e.2 :: avail') ?_ h3
    intro x
    simp only [List.mem_cons]
    exact or_congr Iff.rfl (hset x)

theorem treelike_from_closure (P : ℕ → Prop) (avail : List ℕ)
    (l : List (ℕ × ℕ)) (h : treelike_from avail l)
    (havail : ∀ x ∈ avail, P x)
    (hstep : ∀ e ∈ l, P e.1 → P e.2) :
    ∀ e ∈ l, P e.2 := by
  induction l generalizing avail with
  | nil => intro e he; cases he
  | cons f rest ih =>
    obtain ⟨h1, h2, h3⟩ := h
    have hPf : P f.2 := hstep f (List.mem_cons_self _ _) (havail f.1 h1)
    intro e he
    rcases List.mem_cons.1 he with rfl | hmem
    · exact hPf
    · refine ih (f.2 :: avail) h3 ?_ (fun e' he' => hstep e' (List.mem_cons_of_mem _ he')) e hmem
      intro x hx
      rcases List.mem_cons.1 hx with rfl | hx'
      · exact hPf
      · exact havail x hx'

theorem treelike_from_snd_nodup (avail : List ℕ) (l : List (ℕ × ℕ))
    (h : treelike_from avail l) :
    (l.map (fun e => e.2)).Nodup ∧ ∀ e ∈ l, e.2 ∉ avail := by
  induction l generalizing avail with
  | nil => exact ⟨List.nodup_nil, fun e he => absurd he (List.not_mem_nil e)⟩
  | cons f rest ih =>
    obtain ⟨h1, h2, h3⟩ := h
    obtain ⟨ihnd, ihav⟩ := ih (f.2 :: avail) h3
    constructor
    · rw [List.map_cons, List.nodup_cons]
      refine ⟨?_, ihnd⟩
      intro hm
      obtain ⟨e, he, heq⟩ := List.mem_map.1 hm
      exact (ihav e he) (heq ▸ List.mem_cons_self _ _)
    · intro e he
      rcases List.mem_cons.1 he with rfl | hmem
      · exact h2
      · intro hmem2
        exact (ihav e hmem) (List.mem_cons_of_mem _ hmem2)

theorem treelike_from_fst_ne_snd (avail : List ℕ) (l : List (ℕ × ℕ))
    (h : treelike_from avail l) : ∀ e ∈ l, e.1 ≠ e.2 := by
  induction l generalizing avail with
  | nil => intro e he; cases he
  | cons f rest ih =>
    obtain ⟨h1, h2, h3⟩ := h
    intro e he
    rcases List.mem_cons.1 he with rfl | hmem
    · intro heq
      exact h2 (heq ▸ h1)
    · exact ih (f.2 :: avail) h3 e hmem

theorem treelike_from_shrink (avail avail' : List ℕ) (l : List (ℕ × ℕ))
    (A : ℕ → Prop) (h : treelike_from avail l) (hends : ∀ e ∈ l, A e.1)
    (hsub : ∀ x ∈ avail, A x → x ∈ avail') (hsub2 : ∀ x ∈ avail', x ∈ avail) :
    treelike_from avail' l := by
  induction l generalizing avail avail' with
  | nil => exact trivial
  | cons f rest ih =>
    obtain ⟨h1, h2, h3⟩ := h
    refine ⟨hsub f.1 h1 (hends f (List.mem_cons_self _ _)), fun hm => h2 (hsub2 f.2 hm), ?_⟩
    refine ih (f.2 :: avail) (f.2 :: avail') h3
      (fun e he => hends e (List.mem_cons_of_mem _ he)) ?_ ?_
    · intro x hx hA
      rcases List.mem_cons.1 hx with rfl | hx'
      · exact List.mem_cons_self _ _
      · exact List.mem_cons_of_mem _ (hsub x hx' hA)
    · intro x hx
      rcases List.mem_cons.1 hx with rfl | hx'
      · exact List.mem_cons_self _ _
      · exact List.mem_cons_of_mem _ (hsub2 x hx')

theorem snd_inj_of_nodup {l : List (ℕ × ℕ)}
    (h : (l.map (fun e => e.2)).Nodup) {e e' : ℕ × ℕ}
    (he : e ∈ l) (he' : e' ∈ l) (heq : e.2 = e'.2) : e = e' :=
  List.inj_on_of_nodup_map h he he' heq

theorem sum_map_filter_split {α : Type} (p : α → Bool) (f : α → ℕ)
    (l : List α) :
    ((l.filter p).map f).sum + ((l.filter (fun a => ! p a)).map f).sum =
      (l.map f).sum := by
  induction l with
  | nil => rfl
  | cons a t ih =>
    by_cases hp : p a = true
    · rw [List.filter_cons_of_pos hp,
        List.filter_cons_of_neg (by simp [hp]), List.map_cons, List.map_cons,
        List.sum_cons, List.sum_cons]
      omega
    · rw [List.filter_cons_of_neg hp,
        List.filter_cons_of_pos (by simp [Bool.not_eq_true] at hp; simp [hp]),
        List.map_cons, List.map_cons, List.sum_cons, List.sum_cons]
      omega

theorem map_pair_eta (l : List (ℕ × ℕ)) :
    l.map (fun e => (e.1, e.2)) = l := by
  induction l with
  | nil => rfl
  | cons a t ih => rw [List.map_cons, ih]

theorem bfs_count (arch : Topology) (n : ℕ) (branches : List (ℕ × ℕ))
    (q0 : ℕ) (htree : treelike_from [q0] branches)
    (U : List ℕ) (hInc : ∀ q p, p ∈ incident branches q → p.2 ∈ U) :
    ∀ (queue : List ℕ) (hq : ∀ x ∈ queue, x ∈ U) (visited : List ℕ)
      (ladder : List (ℕ × ℕ)),
      visited.Nodup → queue.Nodup → (∀ x ∈ queue, x ∉ visited) →
      (∀ x ∈ queue, x = q0 ∨ ∃ e ∈ branches, e.2 = x ∧ e.1 ∈ visited) →
      (∀ e ∈ branches, e.1 ∈ visited → e.2 ∈ visited ∨ e.2 ∈ queue) →
      (q0 ∈ visited ∨ q0 ∈ queue) →
      ∀ res, bfs_loop arch n (incident branches) U hInc queue hq
          visited ladder = Except.ok res →
        res.1.length = ladder.length +
          ((branches.filter (fun e => decide (e.2 ∉ visited) &&
              decide (e.2 ∉ queue))).map
            (fun e => (decompose_cnot_ladder_z e.2 e.1 arch).length)).sum := by
  have hsndnd : (branches.map (fun e => e.2)).Nodup :=
    (treelike_from_snd_nodup [q0] branches htree).1
  have hq0snd : ∀ e ∈ branches, e.2 ≠ q0 := by
    intro e he heq
    exact (treelike_from_snd_nodup [q0] branches htree).2 e he
      (heq ▸ List.mem_cons_self _ _)
  intro queue hq visited ladder
  induction queue, hq, visited, ladder
    using bfs_loop.induct arch n (incident branches) U hInc with
  | case1 hnil visited ladder hnil2 =>
    intro hvnd hqnd hdisj hpar hclo hq0m res hres
    rw [bfs_loop] at hres
    injection hres with hres1
    subst hres1
    have hcov : ∀ e ∈ branches, e.2 ∈ visited := by
      refine treelike_from_closure (fun x => x ∈ visited) [q0] branches
        htree ?_ ?_
      · intro x hx
        rcases List.mem_cons.1 hx with rfl | hx'
        · rcases hq0m with h | h
          · exact h
          · cases h
        · cases hx'
      · intro e he hP
        rcases hclo e he hP with h | h
        · exact h
        · cases h
    have hfilter : branches.filter (fun e => decide (e.2 ∉ visited) &&
        decide (e.2 ∉ ([] : List ℕ))) = [] := by
      rw [List.filter_eq_nil_iff]
      intro e he
      simp [hcov e he]
    rw [hfilter]
    simp
  | case2 q rest hq visited ladder hqlt vis2 news hqU ih =>
    intro hvnd hqnd hdisj hpar hclo hq0m res hres
    have hqnv : q ∉ visited := hdisj q (List.mem_cons_self _ _)
    have hins : List.insert q visited = q :: visited :=
      List.insert_of_not_mem hqnv
    have hrestnd : rest.Nodup := (List.nodup_cons.1 hqnd).2
    have hqrest : q ∉ rest := (List.nodup_cons.1 hqnd).1
    -- the parent-oriented incident entries are all already visited
    have hB0 : ∀ e ∈ branches, e.2 = q → e.1 ∈ q :: visited := by
      intro e he heq
      rcases hpar q (List.mem_cons_self _ _) with hq0 | ⟨e', he', he'2, he'1⟩
      · exact absurd (heq.trans hq0) (hq0snd e he)
      · have heqe : e = e' :=
          snd_inj_of_nodup hsndnd he he' (heq.trans he'2.symm)
        exact List.mem_cons_of_mem _ (heqe ▸ he'1)
    have hnewsEq : (incident branches q).filter
        (fun th => decide (th.2 ∉ (q :: visited))) =
        branches.filter
          (fun e => decide (e.2 ∉ (q :: visited)) && (e.1 == q)) := by
      unfold incident
      rw [List.filter_append]
      have h2nil : ((branches.filter (fun e => e.2 == q)).map
          (fun e => (e.2, e.1))).filter
          (fun th => decide (th.2 ∉ (q :: visited))) = [] := by
        rw [List.filter_eq_nil_iff]
        intro th hth
        obtain ⟨e, he, rfl⟩ := List.mem_map.1 hth
        have he2 : e.2 = q := by
          have h := (List.mem_filter.1 he).2
          simpa using h
        simp only [decide_eq_true_eq, not_not]
        exact hB0 e (List.mem_of_mem_filter he) he2
      rw [h2nil, List.append_nil, List.filter_map, List.filter_filter,
        map_pair_eta]
      rfl
    -- children of q are not queued yet
    have hchild_rest : ∀ e ∈ branches, e.1 = q → e.2 ∉ rest := by
      intro e he he1 hmem
      rcases hpar e.2 (List.mem_cons_of_mem _ hmem) with hq0 | ⟨e', he', he'2, he'1⟩
      · exact hq0snd e he hq0
      · have heqe : e = e' := snd_inj_of_nodup hsndnd he he' he'2.symm
        rw [← heqe, he1] at he'1
        exact hqnv he'1
    have hv2 : vis2 = q :: visited := hins
    have hnews0 : news = (incident branches q).filter
        (fun th => decide (th.2 ∉ (q :: visited))) := by
      rw [← hv2]
    have hnewsB : news = branches.filter
        (fun e => decide (e.2 ∉ (q :: visited)) && (e.1 == q)) :=
      hnews0.trans hnewsEq
    have hmemNewsB : ∀ e, e ∈ branches.filter
        (fun e => decide (e.2 ∉ (q :: visited)) && (e.1 == q)) ↔
        (e ∈ branches ∧ e.2 ∉ (q :: visited) ∧ e.1 = q) := by
      intro e
      rw [List.mem_filter]
      simp [and_assoc]
    have h1 : vis2.Nodup := by
      rw [hv2]
      exact List.nodup_cons.2 ⟨hqnv, hvnd⟩
    have h2 : (rest ++ news.map (fun th => th.2)).Nodup := by
      rw [hnewsB, List.nodup_append]
      refine ⟨hrestnd, ?_, ?_⟩
      · exact ((List.filter_sublist _).map _).nodup hsndnd
      · intro x hx hx2
        obtain ⟨e, he, rfl⟩ := List.mem_map.1 hx2
        obtain ⟨heb, hnv, he1⟩ := (hmemNewsB e).1 he
        exact hchild_rest e heb he1 hx
    have h3 : ∀ x ∈ rest ++ news.map (fun th => th.2), x ∉ vis2 := by
      rw [hnewsB, hv2]
      intro x hx
      rcases List.mem_append.1 hx with hxa | hxb
      · intro hmem
        rcases List.mem_cons.1 hmem with heq | hmem2
        · rw [heq] at hxa
          exact hqrest hxa
        · exact hdisj x (List.mem_cons_of_mem _ hxa) hmem2
      · obtain ⟨e, he, rfl⟩ := List.mem_map.1 hxb
        exact ((hmemNewsB e).1 he).2.1
    have h4 : ∀ x ∈ rest ++ news.map (fun th => th.2),
        x = q0 ∨ ∃ e ∈ branches, e.2 = x ∧ e.1 ∈ vis2 := by
      rw [hnewsB, hv2]
      intro x hx
      rcases List.mem_append.1 hx with hxa | hxb
      · rcases hpar x (List.mem_cons_of_mem _ hxa) with h | ⟨e, he, he2, he1⟩
        · exact Or.inl h
        · exact Or.inr ⟨e, he, he2, List.mem_cons_of_mem _ he1⟩
      · obtain ⟨e, he, rfl⟩ := List.mem_map.1 hxb
        obtain ⟨heb, hnv, he1⟩ := (hmemNewsB e).1 he
        refine Or.inr ⟨e, heb, rfl, ?_⟩
        rw [he1]
        exact List.mem_cons_self _ _
    have h5 : ∀ e ∈ branches, e.1 ∈ vis2 →
        e.2 ∈ vis2 ∨ e.2 ∈ rest ++ news.map (fun th => th.2) := by
      rw [hnewsB, hv2]
      intro e he h1m
      rcases List.mem_cons.1 h1m with he1 | he1
      · by_cases hv : e.2 ∈ q :: visited
        · exact Or.inl hv
        · refine Or.inr (List.mem_append.2 (Or.inr ?_))
          exact List.mem_map.2 ⟨e, (hmemNewsB e).2 ⟨he, hv, he1⟩, rfl⟩
      · rcases hclo e he he1 with h | h
        · exact Or.inl (List.mem_cons_of_mem _ h)
        · rcases List.mem_cons.1 h with h2 | h2
          · refine Or.inl ?_
            rw [h2]
            exact List.mem_cons_self _ _
          · exact Or.inr (List.mem_append.2 (Or.inl h2))
    have h6 : q0 ∈ vis2 ∨ q0 ∈ rest ++ news.map (fun th => th.2) := by
      rw [hnewsB, hv2]
      rcases hq0m with h | h
      · exact Or.inl (List.mem_cons_of_mem _ h)
      · rcases List.mem_cons.1 h with h2 | h2
        · refine Or.inl ?_
          rw [h2]
          exact List.mem_cons_self _ _
        · exact Or.inr (List.mem_append.2 (Or.inl h2))
    rw [bfs_loop, if_pos hqlt] at hres
    have key := ih h1 h2 h3 h4 h5 h6 res hres
    refine key.trans ?_
    rw [hv2, hnewsB]
    rw [List.length_append, List.length_flatten, List.map_map]
    simp only [Function.comp_def]
    have hFp : (branches.filter (fun e => decide (e.2 ∉ visited) &&
        decide (e.2 ∉ (q :: rest)))).filter (fun e => e.1 == q) =
        branches.filter (fun e => decide (e.2 ∉ (q :: visited)) && (e.1 == q)) := by
      rw [List.filter_filter]
      apply List.filter_congr
      intro e he
      rw [Bool.eq_iff_iff]
      simp only [Bool.and_eq_true, beq_iff_eq, decide_eq_true_eq,
        List.mem_cons, not_or]
      constructor
      · rintro ⟨h1m, h2m, h3m, h4m⟩
        exact ⟨⟨h3m, h2m⟩, h1m⟩
      · rintro ⟨⟨h3m, h2m⟩, h1m⟩
        exact ⟨h1m, h2m, h3m, hchild_rest e he h1m⟩
    have hFnp : (branches.filter (fun e => decide (e.2 ∉ visited) &&
        decide (e.2 ∉ (q :: rest)))).filter (fun e => !(e.1 == q)) =
        branches.filter (fun e => decide (e.2 ∉ (q :: visited)) &&
          decide (e.2 ∉ rest ++ (branches.filter
            (fun e => decide (e.2 ∉ (q :: visited)) && (e.1 == q))).map
              (fun th => th.2))) := by
      rw [List.filter_filter]
      apply List.filter_congr
      intro e he
      generalize hNS : (branches.filter (fun e =>
        decide (e.2 ∉ (q :: visited)) && (e.1 == q))).map (fun th => th.2) = NS
      have hin : ∀ x, x ∈ NS → ∃ e2, e2 ∈ branches ∧ e2.2 = x ∧ e2.1 = q := by
        intro x hx
        rw [← hNS] at hx
        obtain ⟨e2, he2, heq2⟩ := List.mem_map.1 hx
        obtain ⟨he2b, hmid, he21⟩ := (hmemNewsB e2).1 he2
        exact ⟨e2, he2b, heq2, he21⟩
      have hout : e.1 = q → e.2 ∉ (q :: visited) → e.2 ∈ NS := by
        intro ha hb
        rw [← hNS]
        exact List.mem_map.2 ⟨e, (hmemNewsB e).2 ⟨he, hb, ha⟩, rfl⟩
      rw [Bool.eq_iff_iff]
      simp only [Bool.and_eq_true, Bool.not_eq_true', beq_eq_false_iff_ne,
        beq_iff_eq, decide_eq_true_eq, List.mem_cons, List.mem_append,
        not_or, ne_eq]
      constructor
      · rintro ⟨h1m, h2m, h3m, h4m⟩
        refine ⟨⟨h3m, h2m⟩, h4m, ?_⟩
        intro hm
        obtain ⟨e2, he2b, heq2, he21⟩ := hin e.2 hm
        apply h1m
        rw [snd_inj_of_nodup hsndnd he he2b heq2.symm]
        exact he21
      · rintro ⟨⟨h3m, h2m⟩, h4m, h5m⟩
        refine ⟨?_, h2m, h3m, h4m⟩
        intro he1
        refine h5m (hout he1 ?_)
        intro hmem
        exact (List.mem_cons.1 hmem).elim h3m h2m
    have hsum := sum_map_filter_split (fun e => e.1 == q)
      (fun e => (decompose_cnot_ladder_z e.2 e.1 arch).length)
      (branches.filter (fun e => decide (e.2 ∉ visited) &&
        decide (e.2 ∉ (q :: rest))))
    rw [hFp, hFnp] at hsum
    omega
  | case3 q rest hq visited ladder hqge hqU =>
    intro hvnd hqnd hdisj hpar hclo hq0m res hres
    rw [bfs_loop, if_neg hqge] at hres
    cases hres

theorem crossing_min_eq_none (edges : List (ℕ × ℕ × ℤ)) (visited : List ℕ)
    (hno : ∀ e ∈ edges, ¬(e.1 ∈ visited ∧ e.2.1 ∉ visited) ∧
      ¬(e.2.1 ∈ visited ∧ e.1 ∉ visited)) :
    crossing_min edges visited = none := by
  unfold crossing_min
  suffices hgen : ∀ (l : List (ℕ × ℕ × ℤ)) (acc : Option (ℕ × ℕ × ℤ)),
      (∀ e ∈ l, ¬(e.1 ∈ visited ∧ e.2.1 ∉ visited) ∧
        ¬(e.2.1 ∈ visited ∧ e.1 ∉ visited)) →
      l.foldl
        (fun best e =>
          let cand : Option (ℕ × ℕ × ℤ) :=
            if e.1 ∈ visited ∧ e.2.1 ∉ visited then some e
            else if e.2.1 ∈ visited ∧ e.1 ∉ visited then
              some (e.2.1, e.1, e.2.2)
            else none
          match best, cand with
          | none, c => c
          | some b, none => some b
          | some b, some c => if c.2.2 < b.2.2 then some c else some b)
        acc = acc by
    exact hgen edges none hno
  intro l
  induction l with
  | nil => intro acc h; rfl
  | cons e es ih =>
    intro acc h
    rw [List.foldl_cons]
    have h1 := (h e (List.mem_cons_self _ _)).1
    have h2 := (h e (List.mem_cons_self _ _)).2
    have hstep : (fun (best : Option (ℕ × ℕ × ℤ)) (e : ℕ × ℕ × ℤ) =>
        let cand : Option (ℕ × ℕ × ℤ) :=
          if e.1 ∈ visited ∧ e.2.1 ∉ visited then some e
          else if e.2.1 ∈ visited ∧ e.1 ∉ visited then
            some (e.2.1, e.1, e.2.2)
          else none
        match best, cand with
        | none, c => c
        | some b, none => some b
        | some b, some c => if c.2.2 < b.2.2 then some c else some b)
        acc e = acc := by
      dsimp only
      rw [if_neg h1, if_neg h2]
      cases acc <;> rfl
    exact (ih _ (fun e' he' => h e' (List.mem_cons_of_mem _ he'))).trans hstep

theorem crossing_min_none_forall (edges : List (ℕ × ℕ × ℤ))
    (visited : List ℕ) (h : crossing_min edges visited = none) :
    ∀ e ∈ edges, ¬(e.1 ∈ visited ∧ e.2.1 ∉ visited) ∧
      ¬(e.2.1 ∈ visited ∧ e.1 ∉ visited) := by
  unfold crossing_min at h
  suffices hgen : ∀ (l : List (ℕ × ℕ × ℤ)) (acc : Option (ℕ × ℕ × ℤ)),
      l.foldl
        (fun best e =>
          let cand : Option (ℕ × ℕ × ℤ) :=
            if e.1 ∈ visited ∧ e.2.1 ∉ visited then some e
            else if e.2.1 ∈ visited ∧ e.1 ∉ visited then
              some (e.2.1, e.1, e.2.2)
            else none
          match best, cand with
          | none, c => c
          | some b, none => some b
          | some b, some c => if c.2.2 < b.2.2 then some c else some b)
        acc = none →
      acc = none ∧ ∀ e ∈ l, ¬(e.1 ∈ visited ∧ e.2.1 ∉ visited) ∧
        ¬(e.2.1 ∈ visited ∧ e.1 ∉ visited) by
    exact (hgen edges none h).2
  intro l
  induction l with
  | nil =>
    intro acc h0
    exact ⟨h0, fun e he => absurd he (List.not_mem_nil e)⟩
  | cons e es ih =>
    intro acc h0
    rw [List.foldl_cons] at h0
    obtain ⟨hstep, hes⟩ := ih _ h0
    have hacc : acc = none ∧ ¬(e.1 ∈ visited ∧ e.2.1 ∉ visited) ∧
        ¬(e.2.1 ∈ visited ∧ e.1 ∉ visited) := by
      by_cases hv1 : e.1 ∈ visited ∧ e.2.1 ∉ visited
      · exfalso
        simp only [if_pos hv1] at hstep
        cases acc with
        | none => exact Option.noConfusion hstep
        | some b =>
          by_cases hlt : e.2.2 < b.2.2
          · simp only [if_pos hlt] at hstep
            exact Option.noConfusion hstep
          · simp only [if_neg hlt] at hstep
            exact Option.noConfusion hstep
      · by_cases hv2 : e.2.1 ∈ visited ∧ e.1 ∉ visited
        · exfalso
          simp only [if_neg hv1, if_pos hv2] at hstep
          cases acc with
          | none => exact Option.noConfusion hstep
          | some b =>
            by_cases hlt : e.2.2 < b.2.2
            · simp only [if_pos hlt] at hstep
              exact Option.noConfusion hstep
            · simp only [if_neg hlt] at hstep
              exact Option.noConfusion hstep
        · simp only [if_neg hv1, if_neg hv2] at hstep
          cases acc with
          | none => exact ⟨rfl, hv1, hv2⟩
          | some b => exact Option.noConfusion hstep
    refine ⟨hacc.1, ?_⟩
    intro e' he'
    rcases List.mem_cons.1 he' with rfl | hmem
    · exact hacc.2
    · exact hes e' hmem

theorem crossing_min_some_spec (edges : List (ℕ × ℕ × ℤ)) (visited : List ℕ)
    (c : ℕ × ℕ × ℤ) (h : crossing_min edges visited = some c) :
    c.1 ∈ visited ∧ c.2.1 ∉ visited ∧
    (c ∈ edges ∨ (c.2.1, c.1, c.2.2) ∈ edges) := by
  unfold crossing_min at h
  suffices hgen : ∀ (l : List (ℕ × ℕ × ℤ)) (acc : Option (ℕ × ℕ × ℤ)),
      (∀ e ∈ l, e ∈ edges) →
      (∀ b, acc = some b → b.1 ∈ visited ∧ b.2.1 ∉ visited ∧
        (b ∈ edges ∨ (b.2.1, b.1, b.2.2) ∈ edges)) →
      ∀ c, l.foldl
        (fun best e =>
          let cand : Option (ℕ × ℕ × ℤ) :=
            if e.1 ∈ visited ∧ e.2.1 ∉ visited then some e
            else if e.2.1 ∈ visited ∧ e.1 ∉ visited then
              some (e.2.1, e.1, e.2.2)
            else none
          match best, cand with
          | none, c => c
          | some b, none => some b
          | some b, some c => if c.2.2 < b.2.2 then some c else some b)
        acc = some c →
      c.1 ∈ visited ∧ c.2.1 ∉ visited ∧
        (c ∈ edges ∨ (c.2.1, c.1, c.2.2) ∈ edges) by
    refine hgen edges none (fun _ hm => hm) ?_ c h
    intro b hb
    exact Option.noConfusion hb
  intro l
  induction l with
  | nil =>
    intro acc hsub hacc c0 h0
    exact hacc c0 h0
  | cons e es ih =>
    intro acc hsub hacc c0 h0
    rw [List.foldl_cons] at h0
    refine ih _ (fun e' he' => hsub e' (List.mem_cons_of_mem _ he')) ?_ c0 h0
    intro b hb
    have hemem : e ∈ edges := hsub e (List.mem_cons_self _ _)
    by_cases hv1 : e.1 ∈ visited ∧ e.2.1 ∉ visited
    · simp only [if_pos hv1] at hb
      cases acc with
      | none =>
        cases hb
        exact ⟨hv1.1, hv1.2, Or.inl hemem⟩
      | some b0 =>
        by_cases hlt : e.2.2 < b0.2.2
        · simp only [if_pos hlt] at hb
          cases hb
          exact ⟨hv1.1, hv1.2, Or.inl hemem⟩
        · simp only [if_neg hlt] at hb
          cases hb
          exact hacc b rfl
    · by_cases hv2 : e.2.1 ∈ visited ∧ e.1 ∉ visited
      · simp only [if_neg hv1, if_pos hv2] at hb
        cases acc with
        | none =>
          cases hb
          exact ⟨hv2.1, hv2.2, Or.inr hemem⟩
        | some b0 =>
          by_cases hlt : e.2.2 < b0.2.2
          · simp only [if_pos hlt] at hb
            cases hb
            exact ⟨hv2.1, hv2.2, Or.inr hemem⟩
          · simp only [if_neg hlt] at hb
            cases hb
            exact hacc b rfl
      · simp only [if_neg hv1, if_neg hv2] at hb
        cases acc with
        | none => exact Option.noConfusion hb
        | some b0 =>
          cases hb
          exact hacc b rfl

theorem mem_build_edges (column : List ℤ) (arch : Topology) (e : ℕ × ℕ × ℤ) :
    e ∈ build_edges column arch ↔
    e.1 < e.2.1 ∧ e.2.1 < column.length ∧ column.getD e.1 0 ≠ 0 ∧
    column.getD e.2.1 0 ≠ 0 ∧ e.2.2 = 4 * (arch.dist e.1 e.2.1 : ℤ) - 2 := by
  unfold build_edges
  rw [List.mem_flatMap]
  constructor
  · rintro ⟨i, hi, hmem⟩
    rw [List.mem_map] at hmem
    obtain ⟨j, hj, rfl⟩ := hmem
    obtain ⟨hjr, hpred⟩ := List.mem_filter.1 hj
    simp only [Bool.and_eq_true, decide_eq_true_eq] at hpred
    obtain ⟨⟨hij, hia⟩, hja⟩ := hpred
    exact ⟨hij, List.mem_range.1 hjr, hia, hja, rfl⟩
  · rintro ⟨hij, hjn, hia, hja, hw⟩
    refine ⟨e.1, List.mem_range.2 (lt_trans hij hjn), ?_⟩
    rw [List.mem_map]
    refine ⟨e.2.1, List.mem_filter.2 ⟨List.mem_range.2 hjn, ?_⟩, ?_⟩
    · simp only [Bool.and_eq_true, decide_eq_true_eq]
      exact ⟨⟨hij, hia⟩, hja⟩
    · rw [← hw]

theorem build_edges_connects (column : List ℤ) (arch : Topology) {a b : ℕ}
    (ha : a < column.length) (hb : b < column.length) (hab : a ≠ b)
    (haa : column.getD a 0 ≠ 0) (hba : column.getD b 0 ≠ 0) :
    ∃ e ∈ build_edges column arch,
      (e.1 = a ∧ e.2.1 = b) ∨ (e.1 = b ∧ e.2.1 = a) := by
  rcases Nat.lt_or_ge a b with h | h
  · exact ⟨(a, b, 4 * (arch.dist a b : ℤ) - 2),
      (mem_build_edges column arch _).2 ⟨h, hb, haa, hba, rfl⟩,
      Or.inl ⟨rfl, rfl⟩⟩
  · have h2 : b < a := Nat.lt_of_le_of_ne h (Ne.symm hab)
    exact ⟨(b, a, 4 * (arch.dist b a : ℤ) - 2),
      (mem_build_edges column arch _).2 ⟨h2, ha, hba, haa, rfl⟩,
      Or.inr ⟨rfl, rfl⟩⟩

theorem filter_length_succ {α : Type} [DecidableEq α] (p : α → Bool) (b : α) :
    ∀ (L : List α), L.Nodup → b ∈ L → p b = true →
    (L.filter (fun x => p x && decide (x ≠ b))).length + 1 =
      (L.filter p).length := by
  intro L
  induction L with
  | nil => intro _ h; cases h
  | cons a t ih =>
    intro hnd hmem hpb
    obtain ⟨hat, htnd⟩ := List.nodup_cons.1 hnd
    rcases List.mem_cons.1 hmem with heq | hbt
    · rw [List.filter_cons_of_neg (by simp [heq]),
        List.filter_cons_of_pos (heq ▸ hpb)]
      have hcongr : t.filter (fun x => p x && decide (x ≠ b)) = t.filter p := by
        apply List.filter_congr
        intro x hx
        have hxb : x ≠ b := fun hh => hat (heq ▸ hh ▸ hx)
        simp [hxb]
      rw [hcongr, List.length_cons]
    · by_cases hpa : p a = true
      · have hane : a ≠ b := fun hh => hat (hh ▸ hbt)
        rw [List.filter_cons_of_pos (by simp [hpa, hane]),
          List.filter_cons_of_pos hpa, List.length_cons, List.length_cons]
        have := ih htnd hbt hpb
        omega
      · rw [List.filter_cons_of_neg (by simp [hpa]),
          List.filter_cons_of_neg hpa]
        exact ih htnd hbt hpb

theorem prim_from_crossing_none (edges : List (ℕ × ℕ × ℤ)) (visited : List ℕ)
    (acc : List (ℕ × ℕ)) (h : crossing_min edges visited = none) :
    ∀ fuel, prim_from edges fuel visited acc = (visited, acc) := by
  intro fuel
  cases fuel with
  | zero => rfl
  | succ n =>
    unfold prim_from
    rw [h]

theorem active_all_visited_of_count_zero (column : List ℤ) (visited : List ℕ)
    (h : ((List.range column.length).filter (fun i =>
      decide (column.getD i 0 ≠ 0) && decide (i ∉ visited))).length = 0) :
    ∀ i, i < column.length → column.getD i 0 ≠ 0 → i ∈ visited := by
  intro i hin hact
  by_contra hni
  have hmem : i ∈ (List.range column.length).filter (fun i =>
      decide (column.getD i 0 ≠ 0) && decide (i ∉ visited)) :=
    List.mem_filter.2 ⟨List.mem_range.2 hin,
      by simp only [Bool.and_eq_true, decide_eq_true_eq]; exact ⟨hact, hni⟩⟩
  rw [List.length_eq_zero.1 h] at hmem
  cases hmem

theorem count_insert (column : List ℤ) (visited : List ℕ) (b : ℕ)
    (hb : b < column.length) (hact : column.getD b 0 ≠ 0) (hnv : b ∉ visited) :
    ((List.range column.length).filter (fun i =>
      decide (column.getD i 0 ≠ 0) && decide (i ∉ visited ++ [b]))).length + 1 =
    ((List.range column.length).filter (fun i =>
      decide (column.getD i 0 ≠ 0) && decide (i ∉ visited))).length := by
  have hcongr : (List.range column.length).filter (fun i =>
      decide (column.getD i 0 ≠ 0) && decide (i ∉ visited ++ [b])) =
      (List.range column.length).filter (fun i =>
        (decide (column.getD i 0 ≠ 0) && decide (i ∉ visited)) &&
          decide (i ≠ b)) := by
    apply List.filter_congr
    intro x hx
    rw [Bool.eq_iff_iff]
    simp only [Bool.and_eq_true, decide_eq_true_eq, List.mem_append,
      List.mem_singleton, not_or]
    constructor
    · rintro ⟨hm1, hm2, hm3⟩
      exact ⟨⟨hm1, hm2⟩, hm3⟩
    · rintro ⟨⟨hm1, hm2⟩, hm3⟩
      exact ⟨hm1, hm2, hm3⟩
  rw [hcongr]
  exact filter_length_succ
    (fun i => decide (column.getD i 0 ≠ 0) && decide (i ∉ visited)) b
    (List.range column.length) (List.nodup_range _) (List.mem_range.2 hb)
    (by simp only [Bool.and_eq_true, decide_eq_true_eq]; exact ⟨hact, hnv⟩)

theorem prim_from_spec (column : List ℤ) (arch : Topology) :
    ∀ (fuel : ℕ) (visited : List ℕ) (acc : List (ℕ × ℕ)),
    (∃ a ∈ visited, column.getD a 0 ≠ 0) →
    ((List.range column.length).filter (fun i =>
      decide (column.getD i 0 ≠ 0) && decide (i ∉ visited))).length ≤ fuel →
    ∃ B : List (ℕ × ℕ),
      prim_from (build_edges column arch) fuel visited acc =
        (visited ++ B.map (fun e => e.2), acc ++ B) ∧
      treelike_from visited B ∧
      (∀ e ∈ B, column.getD e.1 0 ≠ 0 ∧ column.getD e.2 0 ≠ 0 ∧
        e.1 < column.length ∧ e.2 < column.length) ∧
      (∀ i, i < column.length → column.getD i 0 ≠ 0 →
        i ∈ visited ++ B.map (fun e => e.2)) ∧
      B.length = ((List.range column.length).filter (fun i =>
        decide (column.getD i 0 ≠ 0) && decide (i ∉ visited))).length := by
  intro fuel
  induction fuel with
  | zero =>
    intro visited acc hex hcnt
    have hc0 := Nat.le_zero.1 hcnt
    refine ⟨[], by simp [prim_from], trivial, ?_, ?_,
      by simp only [List.length_nil]; exact hc0.symm⟩
    · intro e he
      cases he
    · intro i hin hact
      rw [List.map_nil, List.append_nil]
      exact active_all_visited_of_count_zero column visited hc0 i hin hact
  | succ fuel ih =>
    intro visited acc hex hcnt
    by_cases hc0 : ((List.range column.length).filter (fun i =>
        decide (column.getD i 0 ≠ 0) && decide (i ∉ visited))).length = 0
    · have hcov := active_all_visited_of_count_zero column visited hc0
      have hnone : crossing_min (build_edges column arch) visited = none := by
        apply crossing_min_eq_none
        intro e he
        obtain ⟨h1, h2, h3, h4, h5⟩ := (mem_build_edges column arch e).1 he
        constructor
        · rintro ⟨hv, hnv⟩
          exact hnv (hcov e.2.1 h2 h4)
        · rintro ⟨hv, hnv⟩
          exact hnv (hcov e.1 (lt_trans h1 h2) h3)
      refine ⟨[], ?_, trivial, ?_, ?_,
        by simp only [List.length_nil]; exact hc0.symm⟩
      · rw [prim_from_crossing_none _ _ _ hnone]
        simp
      · intro e he
        cases he
      · intro i hin hact
        rw [List.map_nil, List.append_nil]
        exact hcov i hin hact
    · have hpos : 0 < ((List.range column.length).filter (fun i =>
          decide (column.getD i 0 ≠ 0) && decide (i ∉ visited))).length :=
        Nat.pos_of_ne_zero hc0
      obtain ⟨b, hbmem⟩ : ∃ b, b ∈ (List.range column.length).filter (fun i =>
          decide (column.getD i 0 ≠ 0) && decide (i ∉ visited)) := by
        cases hfe : (List.range column.length).filter (fun i =>
            decide (column.getD i 0 ≠ 0) && decide (i ∉ visited)) with
        | nil =>
          rw [hfe] at hpos
          cases hpos
        | cons x xs => exact ⟨x, hfe ▸ List.mem_cons_self x xs⟩
      obtain ⟨hbr, hbp⟩ := List.mem_filter.1 hbmem
      simp only [Bool.and_eq_true, decide_eq_true_eq] at hbp
      obtain ⟨hbact, hbnv⟩ := hbp
      have hbn : b < column.length := List.mem_range.1 hbr
      obtain ⟨a, hav, haact⟩ := hex
      have haan : a < column.length := by
        by_contra hge
        exact haact (List.getD_eq_default _ _ (Nat.le_of_not_lt hge))
      have hab : a ≠ b := fun hh => hbnv (hh ▸ hav)
      obtain ⟨e0, he0, hor⟩ :=
        build_edges_connects column arch haan hbn hab haact hbact
      rcases hcm : crossing_min (build_edges column arch) visited with _ | c
      · exfalso
        have hno := crossing_min_none_forall _ _ hcm e0 he0
        rcases hor with ⟨ho1, ho2⟩ | ⟨ho1, ho2⟩
        · exact hno.1 ⟨ho1 ▸ hav, ho2 ▸ hbnv⟩
        · exact hno.2 ⟨ho2 ▸ hav, ho1 ▸ hbnv⟩
      · obtain ⟨hc1v, hc2nv, hcmem⟩ := crossing_min_some_spec _ _ _ hcm
        have hc2facts : column.getD c.2.1 0 ≠ 0 ∧ c.2.1 < column.length ∧
            column.getD c.1 0 ≠ 0 ∧ c.1 < column.length := by
          rcases hcmem with hm | hm
          · obtain ⟨x1, x2, x3, x4, x5⟩ := (mem_build_edges column arch c).1 hm
            exact ⟨x4, x2, x3, lt_trans x1 x2⟩
          · obtain ⟨x1, x2, x3, x4, x5⟩ :=
              (mem_build_edges column arch _).1 hm
            exact ⟨x3, lt_trans x1 x2, x4, x2⟩
        obtain ⟨hc2act, hc2n, hc1act, hc1n⟩ := hc2facts
        have hstep : prim_from (build_edges column arch) (fuel+1) visited acc =
            prim_from (build_edges column arch) fuel (visited ++ [c.2.1])
              (acc ++ [(c.1, c.2.1)]) := by
          conv_lhs => rw [prim_from]
          rw [hcm]
        have hdec := count_insert column visited c.2.1 hc2n hc2act hc2nv
        have hcount2 : ((List.range column.length).filter (fun i =>
            decide (column.getD i 0 ≠ 0) &&
              decide (i ∉ visited ++ [c.2.1]))).length ≤ fuel := by
          omega
        obtain ⟨B2, hB2eq, hB2tree, hB2facts, hB2cov, hB2len⟩ :=
          ih (visited ++ [c.2.1]) (acc ++ [(c.1, c.2.1)])
            ⟨c.2.1, by simp, hc2act⟩ hcount2
        refine ⟨(c.1, c.2.1) :: B2, ?_, ?_, ?_, ?_, ?_⟩
        · rw [hstep, hB2eq]
          simp [List.append_assoc]
        · refine ⟨hc1v, hc2nv, ?_⟩
          refine treelike_from_congr (visited ++ [c.2.1]) (c.2.1 :: visited)
            B2 ?_ hB2tree
          intro x
          simp only [List.mem_append, List.mem_singleton, List.mem_cons]
          tauto
        · intro e he
          rcases List.mem_cons.1 he with heq | hmem
          · rw [heq]
            exact ⟨hc1act, hc2act, hc1n, hc2n⟩
          · exact hB2facts e hmem
        · intro i hin hact
          have hmem := hB2cov i hin hact
          simp only [List.mem_append, List.mem_cons, List.mem_singleton,
            List.map_cons] at hmem ⊢
          tauto
        · rw [List.length_cons, hB2len]
          omega

theorem prim_all_phase1 (column : List ℤ) (arch : Topology) (a0 : ℕ)
    (hfirst : ∀ j, j < a0 → column.getD j 0 = 0) :
    ∀ i, i ≤ a0 →
    (List.range i).foldl (fun st node =>
      if node ∈ st.1 then st
      else prim_from (build_edges column arch) column.length
        (st.1 ++ [node]) st.2) (([] : List ℕ), ([] : List (ℕ × ℕ))) =
    (List.range i, []) := by
  intro i
  induction i with
  | zero => intro _; rfl
  | succ i ih =>
    intro hle
    rw [List.range_succ, List.foldl_append, ih (Nat.le_of_succ_le hle)]
    dsimp only [List.foldl_cons, List.foldl_nil]
    rw [if_neg (by simp)]
    have hnone : crossing_min (build_edges column arch)
        (List.range i ++ [i]) = none := by
      apply crossing_min_eq_none
      intro e he
      obtain ⟨h1, h2, h3, h4, h5⟩ := (mem_build_edges column arch e).1 he
      constructor
      · rintro ⟨hv, hnv⟩
        have hlt : e.1 < i + 1 := by
          rcases List.mem_append.1 hv with hm | hm
          · exact Nat.lt_succ_of_lt (List.mem_range.1 hm)
          · rw [List.mem_singleton.1 hm]
            exact Nat.lt_succ_self i
        exact h3 (hfirst e.1 (Nat.lt_of_lt_of_le hlt hle))
      · rintro ⟨hv, hnv⟩
        have hlt : e.2.1 < i + 1 := by
          rcases List.mem_append.1 hv with hm | hm
          · exact Nat.lt_succ_of_lt (List.mem_range.1 hm)
          · rw [List.mem_singleton.1 hm]
            exact Nat.lt_succ_self i
        exact h4 (hfirst e.2.1 (Nat.lt_of_lt_of_le hlt hle))
    rw [prim_from_crossing_none _ _ _ hnone]

theorem prim_all_phase2 (column : List ℤ) (arch : Topology) :
    ∀ (L : List ℕ) (st : List ℕ × List (ℕ × ℕ)),
    (∀ i, i < column.length → column.getD i 0 ≠ 0 → i ∈ st.1) →
    ((L.foldl (fun st node =>
      if node ∈ st.1 then st
      else prim_from (build_edges column arch) column.length
        (st.1 ++ [node]) st.2) st)).2 = st.2 := by
  intro L
  induction L with
  | nil => intro st _; rfl
  | cons a t ih =>
    intro st hcov
    rw [List.foldl_cons]
    by_cases hmem : a ∈ st.1
    · rw [if_pos hmem]
      exact ih st hcov
    · rw [if_neg hmem]
      have hnone : crossing_min (build_edges column arch)
          (st.1 ++ [a]) = none := by
        apply crossing_min_eq_none
        intro e he
        obtain ⟨h1, h2, h3, h4, h5⟩ := (mem_build_edges column arch e).1 he
        constructor
        · rintro ⟨hv, hnv⟩
          exact hnv (List.mem_append.2 (Or.inl (hcov e.2.1 h2 h4)))
        · rintro ⟨hv, hnv⟩
          exact hnv (List.mem_append.2 (Or.inl (hcov e.1 (lt_trans h1 h2) h3)))
      rw [prim_from_crossing_none _ _ _ hnone]
      refine ih (st.1 ++ [a], st.2) ?_
      intro i hin hact
      exact List.mem_append.2 (Or.inl (hcov i hin hact))

theorem prim_all_spec (column : List ℤ) (arch : Topology) (a0 : ℕ)
    (ha0n : a0 < column.length) (ha0act : column.getD a0 0 ≠ 0)
    (hfirst : ∀ j, j < a0 → column.getD j 0 = 0) :
    ∃ B : List (ℕ × ℕ),
      prim_all column.length (build_edges column arch) = B ∧
      treelike_from [a0] B ∧
      (∀ e ∈ B, e.1 ≠ e.2) ∧
      B.length + 1 = active_count column := by
  have hcnt_le : ((List.range column.length).filter (fun i =>
      decide (column.getD i 0 ≠ 0) &&
        decide (i ∉ List.range a0 ++ [a0]))).length ≤ column.length :=
    le_trans (List.length_filter_le _ _) (by simp)
  obtain ⟨B, hBeq, hBtree, hBfacts, hBcov, hBlen⟩ :=
    prim_from_spec column arch column.length (List.range a0 ++ [a0]) []
      ⟨a0, by simp, ha0act⟩ hcnt_le
  have hsplit : List.range column.length = List.range (a0+1) ++
      (List.range (column.length - (a0+1))).map (fun x => (a0+1) + x) := by
    rw [← List.range_add]
    congr 1
    omega
  refine ⟨B, ?_, ?_, ?_, ?_⟩
  · unfold prim_all
    rw [hsplit, List.foldl_append, List.range_succ, List.foldl_append,
      prim_all_phase1 column arch a0 hfirst a0 (le_refl a0)]
    dsimp only [List.foldl_cons, List.foldl_nil]
    rw [if_neg (by simp)]
    rw [hBeq]
    have hphase2 := prim_all_phase2 column arch
      ((List.range (column.length - (a0+1))).map (fun x => (a0+1) + x))
      (List.range a0 ++ [a0] ++ B.map (fun e => e.2), [] ++ B) ?_
    · exact hphase2.trans (List.nil_append B)
    · intro i hin hact
      exact hBcov i hin hact
  · refine treelike_from_shrink (List.range a0 ++ [a0]) [a0] B
      (fun x => column.getD x 0 ≠ 0) hBtree
      (fun e he => (hBfacts e he).1) ?_ ?_
    · intro x hx hA
      rcases List.mem_append.1 hx with hm | hm
      · exact absurd (hfirst x (List.mem_range.1 hm)) hA
      · exact hm
    · intro x hx
      exact List.mem_append.2 (Or.inr hx)
  · exact treelike_from_fst_ne_snd _ B hBtree
  · have hdec := count_insert column (List.range a0) a0 ha0n ha0act (by simp)
    have hcr : (List.range column.length).filter (fun i =>
        decide (column.getD i 0 ≠ 0) && decide (i ∉ List.range a0)) =
        (List.range column.length).filter
          (fun i => decide (column.getD i 0 ≠ 0)) := by
      apply List.filter_congr
      intro x hx
      by_cases hactx : column.getD x 0 ≠ 0
      · have hnr : x ∉ List.range a0 := by
          simp only [List.mem_range]
          intro hlt
          exact hactx (hfirst x hlt)
        rw [decide_eq_true hactx, decide_eq_true hnr, Bool.and_true]
      · rw [decide_eq_false hactx, Bool.false_and]
    unfold active_count
    rw [hBlen, ← hcr]
    omega

theorem np_argmax_aux_const_one (xs : List ℤ)
    (hbin : ∀ x ∈ xs, x = 0 ∨ x = 1) :
    ∀ i best, np_argmax_aux xs i best 1 = best := by
  induction xs with
  | nil => intro i best; rfl
  | cons x t ih =>
    intro i best
    unfold np_argmax_aux
    have hnlt : ¬ (1 : ℤ) < x := by
      rcases hbin x (List.mem_cons_self _ _) with rfl | rfl <;> norm_num
    rw [if_neg hnlt]
    exact ih (fun y hy => hbin y (List.mem_cons_of_mem _ hy)) (i+1) best

theorem np_argmax_aux_zero (xs : List ℤ) :
    (∀ x ∈ xs, x = 0 ∨ x = 1) → (∃ x ∈ xs, x ≠ 0) →
    ∀ i best, ∃ j, j < xs.length ∧ xs.getD j 0 ≠ 0 ∧
      (∀ j2, j2 < j → xs.getD j2 0 = 0) ∧
      np_argmax_aux xs i best 0 = i + j := by
  induction xs with
  | nil =>
    rintro _ ⟨x, hx, _⟩
    cases hx
  | cons x t ih =>
    intro hbin hex
    intro i best
    rcases hbin x (List.mem_cons_self _ _) with rfl | rfl
    · have hext : ∃ y ∈ t, y ≠ 0 := by
        obtain ⟨y, hy, hyne⟩ := hex
        rcases List.mem_cons.1 hy with heq | hmem
        · exact absurd heq hyne
        · exact ⟨y, hmem, hyne⟩
      obtain ⟨j, hj1, hj2, hj3, hj4⟩ :=
        ih (fun y hy => hbin y (List.mem_cons_of_mem _ hy)) hext (i+1) best
      refine ⟨j+1, Nat.succ_lt_succ hj1, by simpa using hj2, ?_, ?_⟩
      · intro j2 hj2lt
        cases j2 with
        | zero => rfl
        | succ j3 => simpa using hj3 j3 (Nat.lt_of_succ_lt_succ hj2lt)
      · unfold np_argmax_aux
        rw [if_neg (lt_irrefl (0 : ℤ)), hj4]
        omega
    · refine ⟨0, Nat.succ_pos _, by norm_num, ?_, ?_⟩
      · intro j2 hj2
        cases hj2
      · unfold np_argmax_aux
        rw [if_pos (by norm_num : (0:ℤ) < 1),
          np_argmax_aux_const_one t
            (fun y hy => hbin y (List.mem_cons_of_mem _ hy)) (i+1) i]
        omega

theorem np_argmax_first_active (column : List ℤ)
    (hbin : ∀ x ∈ column, x = 0 ∨ x = 1) (hex : ∃ x ∈ column, x ≠ 0) :
    ∃ a0, np_argmax column = some a0 ∧ a0 < column.length ∧
      column.getD a0 0 ≠ 0 ∧ ∀ j, j < a0 → column.getD j 0 = 0 := by
  cases column with
  | nil =>
    obtain ⟨x, hx, _⟩ := hex
    cases hx
  | cons x t =>
    rcases hbin x (List.mem_cons_self _ _) with rfl | rfl
    · have hext : ∃ y ∈ t, y ≠ 0 := by
        obtain ⟨y, hy, hyne⟩ := hex
        rcases List.mem_cons.1 hy with heq | hmem
        · exact absurd heq hyne
        · exact ⟨y, hmem, hyne⟩
      obtain ⟨j, hj1, hj2, hj3, hj4⟩ := np_argmax_aux_zero t
        (fun y hy => hbin y (List.mem_cons_of_mem _ hy)) hext 1 0
      refine ⟨1 + j, ?_, by simp; omega, ?_, ?_⟩
      · show some (np_argmax_aux t 1 0 0) = some (1 + j)
        rw [hj4]
      · have heq : 1 + j = j + 1 := by omega
        rw [heq]
        simpa using hj2
      · intro j2 hj2lt
        cases j2 with
        | zero => rfl
        | succ j3 =>
          have : j3 < j := by omega
          simpa using hj3 j3 this
    · refine ⟨0, ?_, Nat.succ_pos _, by norm_num, ?_⟩
      · show some (np_argmax_aux t 1 0 1) = some 0
        rw [np_argmax_aux_const_one t
          (fun y hy => hbin y (List.mem_cons_of_mem _ hy)) 1 0]
      · intro j2 hj2
        cases hj2

theorem decompose_length_pos (ctrl trg : ℕ) (arch : Topology) :
    1 ≤ (decompose_cnot_ladder_z ctrl trg arch).length := by
  unfold decompose_cnot_ladder_z
  rw [List.length_reverse, List.length_append]
  simp

theorem decompose_length_direct (arch : Topology) (hdp : arch.directPaths)
    (ctrl trg : ℕ) (hne : ctrl ≠ trg) :
    (decompose_cnot_ladder_z ctrl trg arch).length = 1 := by
  unfold decompose_cnot_ladder_z
  have h2 : (arch.shortest_path ctrl trg).length = 2 := hdp ctrl trg hne
  have hmid : ((arch.shortest_path ctrl trg).drop 1).dropLast = [] := by
    apply List.length_eq_zero.1
    rw [List.length_dropLast, List.length_drop, h2]
  dsimp only
  rw [hmid]
  simp [cnot_ladder_zigzag]

theorem sum_map_ge_length {α : Type} (f : α → ℕ) (l : List α)
    (h : ∀ x ∈ l, 1 ≤ f x) : l.length ≤ (l.map f).sum := by
  induction l with
  | nil => simp
  | cons a t ih =>
    rw [List.map_cons, List.sum_cons, List.length_cons]
    have h1 := h a (List.mem_cons_self _ _)
    have h2 := ih (fun x hx => h x (List.mem_cons_of_mem _ hx))
    omega

theorem sum_map_all_one {α : Type} (f : α → ℕ) (l : List α)
    (h : ∀ x ∈ l, f x = 1) : (l.map f).sum = l.length := by
  induction l with
  | nil => rfl
  | cons a t ih =>
    rw [List.map_cons, List.sum_cons, List.length_cons,
      h a (List.mem_cons_self _ _),
      ih (fun x hx => h x (List.mem_cons_of_mem _ hx))]
    omega

/-- **C3** (amended). On every binary indicator column, a normally-returning
`find_minimal_cx_assignment` with the default root returns a CNOT ladder of
length at least k - 1, where k is the number of active qubits; when every
shortest path of the topology is a direct hop, as on a complete topology, the
length is exactly k - 1 (the factor 2 of the original claim is applied by the
caller `two_qubit_count`, not by `find_minimal_cx_assignment`). -/
theorem find_minimal_ladder_length (column : List ℤ) (arch : Topology)
    (ladder : List (ℕ × ℕ)) (q0 : ℕ)
    (hbin : ∀ x ∈ column, x = 0 ∨ x = 1)
    (h : find_minimal_cx_assignment column arch none =
      Except.ok (ladder, q0)) :
    active_count column - 1 ≤ ladder.length ∧
    (arch.directPaths → ladder.length = active_count column - 1) := by
  unfold find_minimal_cx_assignment at h
  rw [if_pos hbin] at h
  by_cases hex : ∃ x ∈ column, x ≠ 0
  · obtain ⟨a0, hargm, ha0n, ha0act, hfirst⟩ :=
      np_argmax_first_active column hbin hex
    obtain ⟨B, hBeq, hBtree, hBne, hBlen⟩ :=
      prim_all_spec column arch a0 ha0n ha0act hfirst
    rw [hargm] at h
    dsimp only at h
    obtain ⟨res, hres, hfres⟩ := except_map_ok _ _ _ h
    injection hfres with hf1 hf2
    subst hf1
    have htreeT : treelike_from [a0]
        (prim_all column.length (build_edges column arch)) := by
      rw [hBeq]
      exact hBtree
    have hneT : ∀ e ∈ prim_all column.length (build_edges column arch),
        e.1 ≠ e.2 := by
      rw [hBeq]
      exact hBne
    have hlenT : (prim_all column.length (build_edges column arch)).length + 1
        = active_count column := by
      rw [hBeq]
      exact hBlen
    have hkey := bfs_count arch column.length
      (prim_all column.length (build_edges column arch)) a0
      htreeT _ _ [a0] _ [] [] List.nodup_nil (List.nodup_singleton a0)
      (fun x _ hx => List.not_mem_nil x hx)
      (fun x hx => Or.inl (List.mem_singleton.1 hx))
      (fun e _ h1 => absurd h1 (List.not_mem_nil _))
      (Or.inr (List.mem_cons_self _ _)) res hres
    rw [hkey]
    have hfilt : (prim_all column.length (build_edges column arch)).filter
        (fun e => decide (e.2 ∉ ([] : List ℕ)) && decide (e.2 ∉ [a0])) =
        prim_all column.length (build_edges column arch) := by
      apply List.filter_eq_self.2
      intro e he
      have hsnd := (treelike_from_snd_nodup [a0] _ htreeT).2 e he
      simp only [Bool.and_eq_true, decide_eq_true_eq, List.mem_singleton]
      exact ⟨List.not_mem_nil _, fun heq => hsnd (List.mem_singleton.2 heq)⟩
    rw [hfilt]
    simp only [List.length_nil, Nat.zero_add]
    constructor
    · have hge := sum_map_ge_length
        (fun e => (decompose_cnot_ladder_z e.2 e.1 arch).length)
        (prim_all column.length (build_edges column arch))
        (fun e _ => decompose_length_pos e.2 e.1 arch)
      omega
    · intro hdp
      have heq1 := sum_map_all_one
        (fun e => (decompose_cnot_ladder_z e.2 e.1 arch).length)
        (prim_all column.length (build_edges column arch))
        (fun e he => decompose_length_direct arch hdp e.2 e.1
          (Ne.symm (hneT e he)))
      omega
  · have hact0 : active_count column = 0 := by
      unfold active_count
      rw [List.length_eq_zero, List.filter_eq_nil_iff]
      intro i hi
      have hlt := List.mem_range.1 hi
      simp only [decide_eq_true_eq, not_not]
      rw [List.getD_eq_getElem column 0 hlt]
      push_neg at hex
      exact hex _ (List.getElem_mem hlt)
    have hb : prim_all column.length (build_edges column arch) = [] := by
      rw [build_edges_eq_nil column arch (by omega)]
      exact prim_all_nil column.length
    rcases hargm : np_argmax column with _ | qa
    · rw [hargm] at h
      dsimp only at h
      cases h
    · rw [hargm] at h
      dsimp only at h
      have hqa : qa < column.length := np_argmax_lt_length column qa hargm
      rw [bfs_branches_nil arch column.length _ _ _ qa _ hqa hb] at h
      dsimp only [Except.map] at h
      injection h with h1
      injection h1 with h2 h3
      rw [← h2, hact0]
      exact ⟨Nat.le_refl 0, fun _ => rfl⟩

/-- Concrete run: on the complete 2-qubit topology the two-active column
`[1, 1]` yields the single-entry ladder `[(1, 0)]` rooted at qubit 0. -/
theorem find_minimal_pair_eval :
    find_minimal_cx_assignment [1, 1] (Topology.complete 2) none =
      Except.ok ([(1, 0)], 0) := by
  unfold find_minimal_cx_assignment
  rw [if_pos (by decide : ∀ x ∈ ([1, 1] : List ℤ), x = 0 ∨ x = 1)]
  rw [show np_argmax [1, 1] = some 0 from rfl]
  dsimp only
  rw [bfs_loop, if_pos (by decide : 0 < ([1, 1] : List ℤ).length)]
  show Except.map (fun res : List (ℕ × ℕ) × List ℕ => (res.1, 0))
      (bfs_loop (Topology.complete 2) ([1, 1] : List ℤ).length
      (incident (prim_all ([1, 1] : List ℤ).length
        (build_edges [1, 1] (Topology.complete 2))))
      _ _ [1] _ [0] [(1, 0)]) = Except.ok ([(1, 0)], 0)
  rw [bfs_loop, if_pos (by decide : 1 < ([1, 1] : List ℤ).length)]
  show Except.map (fun res : List (ℕ × ℕ) × List ℕ => (res.1, 0))
      (bfs_loop (Topology.complete 2) ([1, 1] : List ℤ).length
      (incident (prim_all ([1, 1] : List ℤ).length
        (build_edges [1, 1] (Topology.complete 2))))
      _ _ [] _ [1, 0] [(1, 0)]) = Except.ok ([(1, 0)], 0)
  rw [bfs_loop]
  rfl

/-- Counterexample to **C3** as stated: on the complete 2-qubit topology with
the binary column `[1, 1]` (two active qubits, k = 2), the returned ladder has
length 1 = k - 1, not 2*(k-1) = 2; the doubling happens in the caller
`two_qubit_count`, which multiplies the ladder length by 2. -/
theorem find_minimal_complete_ladder_not_double :
    find_minimal_cx_assignment [1, 1] (Topology.complete 2) none =
      Except.ok ([(1, 0)], 0) ∧
    active_count [1, 1] = 2 ∧
    ([(1, 0)] : List (ℕ × ℕ)).length ≠ 2 * (active_count [1, 1] - 1) :=
  ⟨find_minimal_pair_eval, by decide, by decide⟩

/-- Witness for `find_minimal_ladder_length`: the column `[1, 1]` on the
complete 2-qubit topology returns the ladder `[(1, 0)]` of length
1 = active_count - 1. -/
theorem find_minimal_ladder_length_witness :
    (∀ x ∈ ([1, 1] : List ℤ), x = 0 ∨ x = 1) ∧
    (active_count [1, 1] - 1 ≤ ([(1, 0)] : List (ℕ × ℕ)).length ∧
      ((Topology.complete 2).directPaths →
        ([(1, 0)] : List (ℕ × ℕ)).length = active_count [1, 1] - 1)) :=
  ⟨by decide, find_minimal_ladder_length [1, 1] (Topology.complete 2)
    [(1, 0)] 0 (by decide) find_minimal_pair_eval⟩

theorem prim_from_endpoints (column : List ℤ) (arch : Topology) :
    ∀ (fuel : ℕ) (visited : List ℕ) (acc : List (ℕ × ℕ)),
    (∀ e ∈ acc, e.1 < column.length ∧ e.2 < column.length) →
    ∀ e ∈ (prim_from (build_edges column arch) fuel visited acc).2,
      e.1 < column.length ∧ e.2 < column.length := by
  intro fuel
  induction fuel with
  | zero =>
    intro visited acc hacc
    exact hacc
  | succ fuel ih =>
    intro visited acc hacc
    rcases hcm : crossing_min (build_edges column arch) visited with _ | c
    · rw [prim_from_crossing_none _ _ _ hcm]
      exact hacc
    · have hstep : prim_from (build_edges column arch) (fuel+1) visited acc =
          prim_from (build_edges column arch) fuel (visited ++ [c.2.1])
            (acc ++ [(c.1, c.2.1)]) := by
        conv_lhs => rw [prim_from]
        rw [hcm]
      rw [hstep]
      apply ih
      intro e he
      rcases List.mem_append.1 he with hm | hm
      · exact hacc e hm
      · rw [List.mem_singleton.1 hm]
        obtain ⟨hv1, hv2, hmem⟩ := crossing_min_some_spec _ _ _ hcm
        rcases hmem with hm2 | hm2
        · obtain ⟨x1, x2, _, _, _⟩ := (mem_build_edges column arch c).1 hm2
          exact ⟨lt_trans x1 x2, x2⟩
        · obtain ⟨x1, x2, _, _, _⟩ :=
            (mem_build_edges column arch _).1 hm2
          exact ⟨x2, lt_trans x1 x2⟩

theorem prim_all_endpoints (column : List ℤ) (arch : Topology) :
    ∀ e ∈ prim_all column.length (build_edges column arch),
      e.1 < column.length ∧ e.2 < column.length := by
  unfold prim_all
  have main : ∀ (L : List ℕ) (st : List ℕ × List (ℕ × ℕ)),
      (∀ e ∈ st.2, e.1 < column.length ∧ e.2 < column.length) →
      ∀ e ∈ (L.foldl (fun st node =>
        if node ∈ st.1 then st
        else prim_from (build_edges column arch) column.length
          (st.1 ++ [node]) st.2) st).2,
        e.1 < column.length ∧ e.2 < column.length := by
    intro L
    induction L with
    | nil =>
      intro st hst
      exact hst
    | cons a t ih =>
      intro st hst
      rw [List.foldl_cons]
      by_cases hmem : a ∈ st.1
      · rw [if_pos hmem]
        exact ih st hst
      · rw [if_neg hmem]
        exact ih _ (prim_from_endpoints column arch column.length
          (st.1 ++ [a]) st.2 hst)
  exact main (List.range column.length) ([], [])
    (fun e he => absurd he (List.not_mem_nil e))

/-- Counterexample to **C7** as stated: two binary inputs still raise.  The
empty column is binary yet with no explicit root `np.argmax` of an empty
array raises `ValueError`; and the binary column `[1, 1]` with the explicit
out-of-range root 5 raises `KeyError`, because the BFS looks up
`incident[5]` in a dictionary keyed by `range(len(column)) = {0, 1}`. -/
theorem find_minimal_empty_binary_raises :
    ((∀ x ∈ ([] : List ℤ), x = 0 ∨ x = 1) ∧
      find_minimal_cx_assignment [] (Topology.complete 0) none =
        Except.error CxErr.emptyArgmax) ∧
    ((∀ x ∈ ([1, 1] : List ℤ), x = 0 ∨ x = 1) ∧
      find_minimal_cx_assignment [1, 1] (Topology.complete 2) (some 5) =
        Except.error CxErr.keyError) := by
  refine ⟨⟨fun x hx => absurd hx (List.not_mem_nil x), rfl⟩,
    ⟨by decide, ?_⟩⟩
  unfold find_minimal_cx_assignment
  rw [if_pos (by decide : ∀ x ∈ ([1, 1] : List ℤ), x = 0 ∨ x = 1)]
  dsimp only
  rw [bfs_loop, if_neg (by decide : ¬ (5 < ([1, 1] : List ℤ).length))]
  rfl

/-- **C7** (amended). `find_minimal_cx_assignment` raises an error if and
only if the indicator column contains a value other than 0 or 1, or no root
qubit is supplied and the column is empty (`np.argmax` raises), or the
supplied root lies outside `range(len(column))` (the `incident`-dictionary
lookup raises `KeyError`); in every other case it returns normally, and on
the error path no partial result is produced. -/
theorem find_minimal_error_iff (column : List ℤ) (arch : Topology)
    (q0opt : Option ℕ) :
    (∃ e, find_minimal_cx_assignment column arch q0opt = Except.error e) ↔
    (¬ ∀ x ∈ column, x = 0 ∨ x = 1) ∨ (q0opt = none ∧ column = []) ∨
    (∃ q0, q0opt = some q0 ∧ column.length ≤ q0) := by
  have hU0 : ∀ x ∈ (prim_all column.length
      (build_edges column arch)).flatMap (fun e => [e.1, e.2]),
      x < column.length := by
    intro x hx
    obtain ⟨e, he, hxe⟩ := List.mem_flatMap.1 hx
    obtain ⟨hep1, hep2⟩ := prim_all_endpoints column arch e he
    rcases List.mem_cons.1 hxe with heq | hxe2
    · rw [heq]
      exact hep1
    · rw [List.mem_singleton.1 hxe2]
      exact hep2
  unfold find_minimal_cx_assignment
  by_cases hbin : ∀ x ∈ column, x = 0 ∨ x = 1
  · simp only [if_pos hbin]
    rcases q0opt with _ | q
    · cases column with
      | nil =>
        dsimp only [np_argmax]
        constructor
        · intro _
          exact Or.inr (Or.inl ⟨rfl, rfl⟩)
        · intro _
          exact ⟨CxErr.emptyArgmax, rfl⟩
      | cons x xs =>
        dsimp only [np_argmax]
        constructor
        · rintro ⟨e, he⟩
          exfalso
          have herr := except_map_error _ _ _ he
          refine bfs_loop_ne_error arch (x :: xs).length _ _ _ ?_
            [np_argmax_aux xs 1 0 x] _ [] [] e herr
          intro y hy
          rcases List.mem_cons.1 hy with heq | hy2
          · rw [heq]
            exact np_argmax_lt_length (x :: xs) _ rfl
          · exact hU0 y hy2
        · rintro (hf | ⟨_, hcol⟩ | ⟨q0m, heq, _⟩)
          · exact absurd hbin hf
          · cases hcol
          · cases heq
    · constructor
      · rintro ⟨e, he⟩
        dsimp only at he
        by_cases hqn : q < column.length
        · exfalso
          have herr := except_map_error _ _ _ he
          refine bfs_loop_ne_error arch column.length _ _ _ ?_
            [q] _ [] [] e herr
          intro y hy
          rcases List.mem_cons.1 hy with heq | hy2
          · rw [heq]
            exact hqn
          · exact hU0 y hy2
        · exact Or.inr (Or.inr ⟨q, rfl, Nat.le_of_not_lt hqn⟩)
      · rintro (hf | ⟨hnone, _⟩ | ⟨q0m, heq, hge⟩)
        · exact absurd hbin hf
        · cases hnone
        · injection heq with heq1
          refine ⟨CxErr.keyError, ?_⟩
          dsimp only
          rw [bfs_loop, if_neg (by omega : ¬ q < column.length)]
          rfl
  · simp only [if_neg hbin]
    constructor
    · intro _
      exact Or.inl hbin
    · intro _
      exact ⟨CxErr.nonBinary, rfl⟩

end PauliOpt

